import Mathlib

/-!
Shallow embedding of the task-precomputation pass of the
llvm-nts-PartialOrderReduction repository (header src/src/tasks.hpp and its
translation unit src/unnamed/part_000).  Pointers to variables, states,
transitions and tasks are modelled as natural-number identities; the
intrusive user_data slots on states and transitions are modelled as an
explicit side table (Mem); the heap of Task objects is a list indexed by
allocation order.
-/

namespace NtsSeq

/-- Identity of a global variable (models a pointer to nts::Variable). -/
abbrev Var := Nat

/-- Write-effect summary, from struct GlobalWrites in tasks.hpp: an exact set
of variables plus the universal marker.  Documented invariant I1: if
everything is true then vars is empty. -/
structure GlobalWrites where
  vars : Finset Var
  everything : Bool
deriving DecidableEq

/-- Default constructor GlobalWrites() : everything(false). -/
def GlobalWrites.mk0 : GlobalWrites := ⟨∅, false⟩

/-- GlobalWrites::insert_everything: clear vars, set the universal marker. -/
def GlobalWrites.insert_everything (_w : GlobalWrites) : GlobalWrites := ⟨∅, true⟩

/-- GlobalWrites::contains: universal implies true, else set membership. -/
def GlobalWrites.contains (w : GlobalWrites) (v : Var) : Bool :=
  w.everything || decide (v ∈ w.vars)

/-- GlobalWrites::insert: no-op when universal, else add the variable. -/
def GlobalWrites.insert (w : GlobalWrites) (v : Var) : GlobalWrites :=
  if w.everything then w else ⟨Insert.insert v w.vars, w.everything⟩

/-- GlobalWrites::union_with, translated from src/unnamed/part_000 lines
200-209: if the other side is universal and we are not, become universal;
if (now) universal, stop; else take the set union of vars. -/
def GlobalWrites.union_with (w other : GlobalWrites) : GlobalWrites :=
  let w1 := if other.everything && !w.everything then w.insert_everything else w
  if w1.everything then w1 else ⟨w1.vars ∪ other.vars, w1.everything⟩

/-- Modelled from the spec: GlobalWrites::clear is declared in tasks.hpp but
its body is not among the given source files; clearing resets the summary to
the freshly constructed empty summary (no variables, universal marker unset),
matching the default constructor. -/
def GlobalWrites.clear (_w : GlobalWrites) : GlobalWrites := ⟨∅, false⟩

/-- Invariant I1 of GlobalWrites (tasks.hpp): the universal marker is set only
when the exact set is empty. -/
def GlobalWrites.inv (w : GlobalWrites) : Prop := w.everything = true → w.vars = ∅

instance (w : GlobalWrites) : Decidable w.inv := by
  unfold GlobalWrites.inv; infer_instance

/-- Effect summary: reads plus writes, from struct Globals in tasks.hpp.
GlobalReads is a plain set of variables. -/
structure Globals where
  reads : Finset Var
  writes : GlobalWrites
deriving DecidableEq

/-- A default-constructed (empty) effect summary. -/
def Globals.empty : Globals := ⟨∅, GlobalWrites.mk0⟩

/-- Globals::union_with (src/unnamed/part_000 lines 239-243): component-wise
union of writes and reads. -/
def Globals.union_with (g other : Globals) : Globals :=
  ⟨g.reads ∪ other.reads, g.writes.union_with other.writes⟩

/-- Modelled from the spec: the body of Globals::may_collide_with is not
among the given source files (tasks.hpp lines 66-73 declare it as commutative
and true iff some global variable is read or modified by one side and
modified by the other).  Two summaries collide iff reads of one meet writes
of the other, or the two write summaries meet, under universal-write
semantics (a universal write meets any non-empty set and another universal
write). -/
def GlobalWrites.meets_reads (w : GlobalWrites) (r : Finset Var) : Bool :=
  decide (∃ v ∈ r, w.contains v = true)

/-- Modelled from the spec: the write-write part of the collision test; part
of the modelled body of Globals::may_collide_with. -/
def GlobalWrites.meets (a b : GlobalWrites) : Bool :=
  (a.everything && b.everything) ||
    decide (∃ v ∈ a.vars, b.contains v = true) ||
    decide (∃ v ∈ b.vars, a.contains v = true)

/-- Modelled from the spec: Globals::may_collide_with built from the pieces
above. -/
def Globals.may_collide_with (a b : Globals) : Bool :=
  b.writes.meets_reads a.reads || a.writes.meets_reads b.reads ||
    a.writes.meets b.writes

/-- Containment of one effect summary in another, phrased through the
membership tests of the two components. -/
def Globals.subsumes (a b : Globals) : Prop :=
  (∀ v, v ∈ b.reads → v ∈ a.reads) ∧
    (∀ v, b.writes.contains v = true → a.writes.contains v = true)

/-- StateInfo (tasks.hpp): back-reference to the state plus the owning task
(a heap index), nullable during partitioning. -/
structure StateInfo where
  st : Nat
  t : Option Nat
deriving DecidableEq

/-- TransitionInfo (tasks.hpp): back-reference plus the computed effect
summary. -/
structure TransitionInfo where
  transition : Nat
  global : Globals
deriving DecidableEq

/-- Task (tasks.hpp): name, direct and transitive effect summaries.  The
states vector and boundary-state data play no role in the translated code
paths and are omitted. -/
structure Task where
  name : List Char
  direct_global : Globals
  transitive_global : Globals
deriving DecidableEq

/-- A freshly allocated Task with the given name: new Task() followed by the
name assignment, with default-constructed effect summaries. -/
def Task.mk0 (nm : List Char) : Task := ⟨nm, Globals.empty, Globals.empty⟩

/-- A control state of a BasicNts: its identity and its optional origin
annotation (find_annot_origin either finds the string or returns null). -/
structure St where
  sid : Nat
  origin : Option (List Char)
deriving DecidableEq

/-- A transition of a BasicNts: its identity and the effect summary that the
external primitive used_global_variables reports for it (the primitive is an
out-of-scope collaborator, so its output is part of the input data). -/
structure Tr where
  tid : Nat
  effect : Globals
deriving DecidableEq

/-- A BasicNts: name, states, transitions. -/
structure BasicNts where
  name : List Char
  states : List St
  transitions : List Tr
deriving DecidableEq

/-- The program representation: the instantiated (toplevel) BasicNtses. -/
structure Nts where
  instances : List BasicNts
deriving DecidableEq

/-- calculate_toplevel_bnts collects the instantiated BasicNtses into a set;
duplicates collapse. -/
def Nts.toplevel (n : Nts) : List BasicNts := n.instances.dedup

/-- Association-list lookup used for the user_data side table and the
name-to-task map. -/
def alookup {α β : Type} [DecidableEq α] : List (α × β) → α → Option β
  | [], _ => none
  | (k, v) :: es, x => if x = k then some v else alookup es x

/-- Decidable equality for results, used to evaluate concrete runs. -/
def exceptDecEq {A B : Type} [DecidableEq A] [DecidableEq B] :
    DecidableEq (Except A B)
  | .error a, .error b =>
      if h : a = b then .isTrue (by rw [h])
      else .isFalse (fun hc => h (by injection hc))
  | .error _, .ok _ => .isFalse (fun hc => Except.noConfusion hc)
  | .ok _, .error _ => .isFalse (fun hc => Except.noConfusion hc)
  | .ok a, .ok b =>
      if h : a = b then .isTrue (by rw [h])
      else .isFalse (fun hc => h (by injection hc))

instance {A B : Type} [DecidableEq A] [DecidableEq B] :
    DecidableEq (Except A B) := exceptDecEq

/-- The user_data side table: per-state and per-transition analysis records
(null pointer = no entry). -/
structure Mem where
  sdata : List (Nat × StateInfo)
  tdata : List (Nat × TransitionInfo)
deriving DecidableEq

/-- All user pointers null. -/
def Mem.empty : Mem := ⟨[], []⟩

/-- Attach (or overwrite) the record of a state. -/
def Mem.setState (mem : Mem) (sid : Nat) (si : StateInfo) : Mem :=
  { mem with sdata := (sid, si) :: mem.sdata }

/-- Attach the record of a transition. -/
def Mem.setTrans (mem : Mem) (tid : Nat) (ti : TransitionInfo) : Mem :=
  { mem with tdata := (tid, ti) :: mem.tdata }

/-- The three logic_error throws of the pass, tagged with the offending
node: "Precondition R4 failed" (state already has user_data),
"Precondition R3 failed" (no origin annotation), and
"Precondition Q2 does not hold" (transition already has user_data). -/
inductive PassError where
  | doubleInitState (sid : Nat)
  | missingOrigin (sid : Nat)
  | doubleInitTransition (tid : Nat)
deriving DecidableEq

/-- The name given to the sentinel task in the Tasks constructor. -/
def sentinelName : List Char := "idle_worker_task".toList

/-- The Tasks object: public fields of class Tasks plus the heap of Task
objects (indexed by allocation order; index 0 is the sentinel allocated by
the constructor).  main_task is never assigned anywhere in the translation
unit, modelled as an Option that starts out none. -/
structure TasksObj where
  main_nts_name : List Char
  toplevel : List BasicNts
  task_heap : List Task
  tasks : List Nat
  name_to_task : List (List Char × Nat)
  main_task : Option Nat
  idle_worker_task : Nat
deriving DecidableEq

/-- Tasks::Tasks: allocate the sentinel (not entered into the map) and
record the toplevel units and main name set up by compute_tasks. -/
def Tasks.init (main : List Char) (tl : List BasicNts) : TasksObj :=
  { main_nts_name := main
    toplevel := tl
    task_heap := [Task.mk0 sentinelName]
    tasks := []
    name_to_task := []
    main_task := none
    idle_worker_task := 0 }

/-- The task-lookup-or-create step of split_to_tasks (part_000 lines
114-127): find the task by name, else allocate a new one, push it onto the
tasks vector and enter it into the map. -/
def TasksObj.getOrCreate (ts : TasksObj) (nm : List Char) : TasksObj × Nat :=
  match alookup ts.name_to_task nm with
  | some tid => (ts, tid)
  | none =>
      let tid := ts.task_heap.length
      ({ ts with
          task_heap := ts.task_heap ++ [Task.mk0 nm]
          tasks := ts.tasks ++ [tid]
          name_to_task := (nm, tid) :: ts.name_to_task }, tid)

/-- The per-state body of split_to_tasks(BasicNts, bool) (part_000 lines
80-130): check user_data, attach a StateInfo with null task, then either
parse the origin annotation (by-origin mode) or use the unit name, assign
the sentinel when the origin has no separator, and otherwise look up or
create the named task and set it as owner.  An error carries the mutated
side table and task state at throw time. -/
def processState (sba : Bool) (bnName : List Char) (s : St) (mem : Mem)
    (ts : TasksObj) : Except (PassError × Mem × TasksObj) (Mem × TasksObj) :=
  if (alookup mem.sdata s.sid).isSome then
    .error (.doubleInitState s.sid, mem, ts)
  else
    if sba then
      match s.origin with
      | none =>
          .error (.missingOrigin s.sid, mem.setState s.sid ⟨s.sid, none⟩, ts)
      | some o =>
          if ':' ∈ o then
            .ok ((mem.setState s.sid ⟨s.sid, none⟩).setState s.sid
                ⟨s.sid, some (ts.getOrCreate (o.takeWhile (fun c => c != ':'))).2⟩,
              (ts.getOrCreate (o.takeWhile (fun c => c != ':'))).1)
          else
            .ok ((mem.setState s.sid ⟨s.sid, none⟩).setState s.sid
                ⟨s.sid, some ts.idle_worker_task⟩, ts)
    else
      .ok ((mem.setState s.sid ⟨s.sid, none⟩).setState s.sid
          ⟨s.sid, some (ts.getOrCreate bnName).2⟩, (ts.getOrCreate bnName).1)

/-- The loop of split_to_tasks(BasicNts, bool) over the unit's states. -/
def splitStates (sba : Bool) (bnName : List Char) :
    List St → Mem → TasksObj → Except (PassError × Mem × TasksObj) (Mem × TasksObj)
  | [], mem, ts => .ok (mem, ts)
  | s :: rest, mem, ts =>
      match processState sba bnName s mem ts with
      | .error e => .error e
      | .ok (mem1, ts1) => splitStates sba bnName rest mem1 ts1

/-- split_to_tasks() (part_000 lines 172-181): the main unit is split by
unit identity, every other unit by origin annotation. -/
def splitAll : List BasicNts → Mem → TasksObj → Except (PassError × Mem × TasksObj) (Mem × TasksObj)
  | [], mem, ts => .ok (mem, ts)
  | bn :: rest, mem, ts =>
      match splitStates (if bn.name = ts.main_nts_name then false else true)
          bn.name bn.states mem ts with
      | .error e => .error e
      | .ok (mem1, ts1) => splitAll rest mem1 ts1

/-- The inner loop of compute_transition_info (part_000 lines 133-170):
check user_data, then attach a TransitionInfo holding the external
primitive's effect summary. -/
def transList (ts : TasksObj) : List Tr → Mem → Except (PassError × Mem × TasksObj) Mem
  | [], mem => .ok mem
  | t :: rest, mem =>
      if (alookup mem.tdata t.tid).isSome then
        .error (.doubleInitTransition t.tid, mem, ts)
      else
        transList ts rest (mem.setTrans t.tid ⟨t.tid, t.effect⟩)

/-- compute_transition_info over all toplevel units. -/
def transAll (ts : TasksObj) : List BasicNts → Mem → Except (PassError × Mem × TasksObj) Mem
  | [], mem => .ok mem
  | bn :: rest, mem =>
      match transList ts bn.transitions mem with
      | .error e => .error e
      | .ok mem1 => transAll ts rest mem1

/-- Tasks::compute_tasks (part_000 lines 183-194): construct the object,
record the main name, collect the toplevel units, split states to tasks and
compute the transition records, then return.  No further pipeline stage is
invoked there. -/
def compute_tasks (n : Nts) (main : List Char) (mem : Mem) :
    Except (PassError × Mem × TasksObj) (Mem × TasksObj) :=
  match splitAll n.toplevel mem (Tasks.init main n.toplevel) with
  | .error e => .error e
  | .ok (mem1, ts1) =>
      match transAll ts1 ts1.toplevel mem1 with
      | .error e => .error e
      | .ok mem2 => .ok (mem2, ts1)

/-- Indexing into the task heap. -/
def nthTask : List Task → Nat → Option Task
  | [], _ => none
  | t :: _, 0 => some t
  | _ :: rest, n + 1 => nthTask rest n

/-- Union of the direct effect summaries of a list of tasks. -/
def unionAllGlobals (l : List Task) : Globals :=
  l.foldl (fun acc t => acc.union_with t.direct_global) Globals.empty

/-- Modelled from the spec: the body of Tasks::compute_transitive_globals is
not among the given source files; tasks.hpp lines 202-215 document the
current policy — no activation graph, every task may activate every task, so
each task's transitive summary is the union of all tasks' direct
summaries. -/
def compute_transitive_globals (heap : List Task) : List Task :=
  heap.map fun t => { t with transitive_global := unionAllGlobals heap }

/-- Internal consistency of a Tasks object: the sentinel index is a valid
heap index, and every map entry points above the sentinel at a heap task
carrying the entry's name. -/
def TasksObj.consistent (ts : TasksObj) : Prop :=
  ts.idle_worker_task < ts.task_heap.length ∧
    ∀ p ∈ ts.name_to_task, ts.idle_worker_task < p.2 ∧
      ∃ tk, nthTask ts.task_heap p.2 = some tk ∧ tk.name = p.1

/-- Well-formed input for the pass over the given toplevel list: no state or
transition carries a record, and every state of a non-main unit has an
origin annotation (preconditions Q3 and Q4 of compute_tasks). -/
def wfInput (tl : List BasicNts) (main : List Char) (mem : Mem) : Prop :=
  (∀ bn ∈ tl, ∀ s ∈ bn.states, alookup mem.sdata s.sid = none) ∧
    (∀ bn ∈ tl, bn.name ≠ main → ∀ s ∈ bn.states, s.origin.isSome) ∧
    (∀ bn ∈ tl, ∀ t ∈ bn.transitions, alookup mem.tdata t.tid = none)

/-- All state identities occurring in the toplevel list. -/
def sidsOf (tl : List BasicNts) : List Nat :=
  (tl.map fun bn => bn.states.map St.sid).flatten

/-- All transition identities occurring in the toplevel list. -/
def tidsOf (tl : List BasicNts) : List Nat :=
  (tl.map fun bn => bn.transitions.map Tr.tid).flatten

/-- Record-preserving evolution of the side table: every attached record
stays attached unchanged. -/
def Mem.sext (m m' : Mem) : Prop :=
  (∀ x v, alookup m.sdata x = some v → alookup m'.sdata x = some v) ∧
    (∀ x v, alookup m.tdata x = some v → alookup m'.tdata x = some v)

/-- Monotone evolution of a Tasks object during the pass: the identifying
fields are untouched, the heap only grows, and map entries persist. -/
def TasksObj.ext (ts ts' : TasksObj) : Prop :=
  ts'.main_nts_name = ts.main_nts_name ∧
    ts'.toplevel = ts.toplevel ∧
    ts'.idle_worker_task = ts.idle_worker_task ∧
    ts'.main_task = ts.main_task ∧
    (∀ i tk, nthTask ts.task_heap i = some tk →
      nthTask ts'.task_heap i = some tk) ∧
    (∀ nm tid, alookup ts.name_to_task nm = some tid →
      alookup ts'.name_to_task nm = some tid)

/-! Concrete programs used to evaluate the pass and to instantiate the
theorems with hypotheses. -/

/-- A BasicNts named main with one state and one transition that writes
global variable 1 according to the external primitive. -/
def exMainBn : BasicNts :=
  ⟨"main".toList, [⟨0, none⟩], [⟨10, ⟨∅, ⟨{1}, false⟩⟩⟩]⟩

/-- The one-instance program around exMainBn. -/
def exNtsMain : Nts := ⟨[exMainBn]⟩

/-- A non-main unit whose single state carries a task-qualified origin
annotation naming the sentinel's name. -/
def exIdleBn : BasicNts :=
  ⟨"thr".toList, [⟨3, some ("idle_worker_task:0:st".toList)⟩], []⟩

/-- The one-instance program around exIdleBn. -/
def exNtsIdle : Nts := ⟨[exIdleBn]⟩

/-- A non-main unit whose single state carries a task-qualified origin,
scanned before the failing unit in the mixed program. -/
def exMixedBn1 : BasicNts :=
  ⟨"thr1".toList, [⟨11, some ("worker:0:a".toList)⟩], []⟩

/-- A non-main unit whose first state is sentinel-bound and whose second
state has no origin annotation. -/
def exMixedBn2 : BasicNts :=
  ⟨"thr2".toList, [⟨12, some ("s_run".toList)⟩, ⟨13, none⟩], []⟩

/-- A two-instance program whose scan attaches two records before hitting
the state with no origin annotation. -/
def exNtsMixed : Nts := ⟨[exMixedBn1, exMixedBn2]⟩

/-- A non-main unit with one sentinel-bound state and one task-qualified
state, used as a general witness input. -/
def exWorkerBn : BasicNts :=
  ⟨"thr".toList,
    [⟨7, some ("worker:3:label".toList)⟩, ⟨8, some ("s_running_1".toList)⟩],
    []⟩

/-- The one-instance program around exWorkerBn. -/
def exNtsWorker : Nts := ⟨[exWorkerBn]⟩

/-- Fallback pair used when projecting a successful run. -/
def defaultPair : Mem × TasksObj := (Mem.empty, Tasks.init [] [])

/-- The result of the pass on the worker program. -/
def runWorkerPair : Mem × TasksObj :=
  (compute_tasks exNtsWorker ("main".toList) Mem.empty).toOption.getD
    defaultPair

/-- The result of the pass on the sentinel-named-origin program. -/
def runIdlePair : Mem × TasksObj :=
  (compute_tasks exNtsIdle ("main".toList) Mem.empty).toOption.getD
    defaultPair

/-- The result of the by-origin split over the worker unit alone. -/
def splitWorkerPair : Mem × TasksObj :=
  (splitStates true ("thr".toList) exWorkerBn.states Mem.empty
    (Tasks.init ("main".toList) [exWorkerBn])).toOption.getD defaultPair

/-- The error produced by the pass on the mixed missing-origin program. -/
def runMixedErr : PassError × Mem × TasksObj :=
  match compute_tasks exNtsMixed ("main".toList) Mem.empty with
  | .error e => e
  | .ok _ => (.missingOrigin 0, Mem.empty, Tasks.init [] [])

/-! Helper lemmas about the write-effect summary algebra. -/

theorem GlobalWrites.union_with_eq (a b : GlobalWrites) (ha : a.inv) :
    a.union_with b =
      ⟨if a.everything || b.everything then ∅ else a.vars ∪ b.vars,
        a.everything || b.everything⟩ := by
  obtain ⟨av, ae⟩ := a
  obtain ⟨bv, be⟩ := b
  cases ae <;> cases be <;>
    simp_all [GlobalWrites.union_with, GlobalWrites.insert_everything,
      GlobalWrites.inv]

theorem GlobalWrites.union_inv (a b : GlobalWrites) (ha : a.inv) :
    (a.union_with b).inv := by
  rw [GlobalWrites.union_with_eq a b ha]
  intro h
  simp only at h
  simp [h]

theorem GlobalWrites.union_everything (a b : GlobalWrites) :
    (a.union_with b).everything = (a.everything || b.everything) := by
  obtain ⟨av, ae⟩ := a
  obtain ⟨bv, be⟩ := b
  cases ae <;> cases be <;>
    simp [GlobalWrites.union_with, GlobalWrites.insert_everything]

theorem GlobalWrites.union_comm (a b : GlobalWrites) (ha : a.inv) (hb : b.inv) :
    a.union_with b = b.union_with a := by
  rw [GlobalWrites.union_with_eq _ _ ha, GlobalWrites.union_with_eq _ _ hb,
    Bool.or_comm, Finset.union_comm]

theorem GlobalWrites.union_assoc3 (a b c : GlobalWrites) (ha : a.inv) (hb : b.inv) :
    (a.union_with b).union_with c = a.union_with (b.union_with c) := by
  obtain ⟨av, ae⟩ := a
  obtain ⟨bv, be⟩ := b
  obtain ⟨cv, ce⟩ := c
  cases ae <;> cases be <;> cases ce <;>
    simp_all [GlobalWrites.union_with, GlobalWrites.insert_everything,
      GlobalWrites.inv, Finset.union_assoc]

theorem GlobalWrites.union_self (a : GlobalWrites) : a.union_with a = a := by
  obtain ⟨av, ae⟩ := a
  cases ae <;> simp [GlobalWrites.union_with, GlobalWrites.insert_everything]

theorem GlobalWrites.contains_union_iff (a b : GlobalWrites) (v : Var) :
    (a.union_with b).contains v = true ↔
      (a.contains v = true ∨ b.contains v = true) := by
  obtain ⟨av, ae⟩ := a
  obtain ⟨bv, be⟩ := b
  cases ae <;> cases be <;>
    simp [GlobalWrites.union_with, GlobalWrites.insert_everything,
      GlobalWrites.contains]

/-- C3: union of effect summaries (component-wise union of reads and
writes) is commutative, associative and idempotent on summaries satisfying
invariant I1, and unioning any write summary with a universal write summary
yields a universal write summary; the union of two exact write summaries is
their set union. -/
theorem claim_C3 :
    (∀ a b : Globals, a.writes.inv → b.writes.inv →
        a.union_with b = b.union_with a) ∧
    (∀ a b c : Globals, a.writes.inv → b.writes.inv → c.writes.inv →
        (a.union_with b).union_with c = a.union_with (b.union_with c)) ∧
    (∀ a : Globals, a.union_with a = a) ∧
    (∀ w u : GlobalWrites, w.inv → u.everything = true →
        (w.union_with u).everything = true ∧
          (u.union_with w).everything = true) ∧
    (∀ w u : GlobalWrites, w.everything = false → u.everything = false →
        w.union_with u = ⟨w.vars ∪ u.vars, false⟩) := by
  refine ⟨?_, ?_, ?_, ?_, ?_⟩
  · intro a b ha hb
    simp only [Globals.union_with]
    rw [Finset.union_comm, GlobalWrites.union_comm _ _ ha hb]
  · intro a b c ha hb hc
    simp only [Globals.union_with]
    rw [Finset.union_assoc, GlobalWrites.union_assoc3 _ _ _ ha hb]
  · intro a
    simp [Globals.union_with, GlobalWrites.union_self]
  · intro w u hw hu
    rw [GlobalWrites.union_everything, GlobalWrites.union_everything, hu]
    simp
  · intro w u hw hu
    simp [GlobalWrites.union_with, hw, hu]

/-- Closed instance of C3's statement at concrete summaries, obtained by
applying the theorem. -/
theorem claim_C3_witness :
    (Globals.mk {1} ⟨{2}, false⟩).union_with (Globals.mk {3} ⟨∅, true⟩) =
        (Globals.mk {3} ⟨∅, true⟩).union_with (Globals.mk {1} ⟨{2}, false⟩) ∧
    ((Globals.mk {1} ⟨{2}, false⟩).union_with (Globals.mk {3} ⟨∅, true⟩)).union_with
          (Globals.mk {1} ⟨{2}, false⟩) =
        (Globals.mk {1} ⟨{2}, false⟩).union_with
          ((Globals.mk {3} ⟨∅, true⟩).union_with (Globals.mk {1} ⟨{2}, false⟩)) ∧
    ((GlobalWrites.mk {2} false).union_with ⟨∅, true⟩).everything = true ∧
    ((GlobalWrites.mk ∅ true).union_with ⟨{2}, false⟩).everything = true ∧
    (GlobalWrites.mk {2} false).union_with ⟨{4}, false⟩ = ⟨{2} ∪ {4}, false⟩ :=
  ⟨claim_C3.1 _ _ (by decide) (by decide),
    claim_C3.2.1 _ _ _ (by decide) (by decide) (by decide),
    (claim_C3.2.2.2.1 ⟨{2}, false⟩ ⟨∅, true⟩ (by decide) (by decide)).1,
    (claim_C3.2.2.2.1 ⟨{2}, false⟩ ⟨∅, true⟩ (by decide) (by decide)).2,
    claim_C3.2.2.2.2 ⟨{2}, false⟩ ⟨{4}, false⟩ (by decide) (by decide)⟩

/-- C6: invariant I1 (universal marker only with empty exact set) holds for
the default-constructed summary and is preserved by insert,
insert_everything, union_with and clear. -/
theorem claim_C6 :
    GlobalWrites.mk0.inv ∧
    (∀ (w : GlobalWrites) (v : Var), w.inv → (w.insert v).inv) ∧
    (∀ w : GlobalWrites, w.insert_everything.inv) ∧
    (∀ a b : GlobalWrites, a.inv → b.inv → (a.union_with b).inv) ∧
    (∀ w : GlobalWrites, w.clear.inv) := by
  refine ⟨?_, ?_, ?_, ?_, ?_⟩
  · intro h
    cases h
  · intro w v hw
    unfold GlobalWrites.insert
    by_cases h : w.everything = true
    · simp only [h, if_true]
      exact hw
    · simp only [Bool.not_eq_true] at h
      simp [h, GlobalWrites.inv]
  · intro w h
    rfl
  · intro a b ha _
    exact GlobalWrites.union_inv a b ha
  · intro w h
    rfl

/-- Closed instance of C6's statement at concrete summaries, obtained by
applying the theorem. -/
theorem claim_C6_witness :
    ((GlobalWrites.mk {7} false).insert 5).inv ∧
      ((GlobalWrites.mk ∅ true).union_with ⟨{9}, false⟩).inv :=
  ⟨claim_C6.2.1 ⟨{7}, false⟩ 5 (by decide),
    claim_C6.2.2.2.1 ⟨∅, true⟩ ⟨{9}, false⟩ (by decide) (by decide)⟩

/-- The set-theoretic characterisation of the collision predicate. -/
theorem may_collide_iff (a b : Globals) :
    a.may_collide_with b = true ↔
      ∃ v : Var, (v ∈ a.reads ∧ b.writes.contains v = true) ∨
        (a.writes.contains v = true ∧ v ∈ b.reads) ∨
        (a.writes.contains v = true ∧ b.writes.contains v = true) := by
  unfold Globals.may_collide_with GlobalWrites.meets_reads GlobalWrites.meets
  simp only [Bool.or_eq_true, decide_eq_true_eq, Bool.and_eq_true]
  constructor
  · rintro ((⟨v, hv, hc⟩ | ⟨v, hv, hc⟩) | (⟨hae, hbe⟩ | ⟨v, hv, hc⟩) | ⟨v, hv, hc⟩)
    · exact ⟨v, Or.inl ⟨hv, hc⟩⟩
    · exact ⟨v, Or.inr (Or.inl ⟨hc, hv⟩)⟩
    · refine ⟨0, Or.inr (Or.inr ⟨?_, ?_⟩)⟩ <;>
        simp [GlobalWrites.contains, hae, hbe]
    · refine ⟨v, Or.inr (Or.inr ⟨?_, hc⟩)⟩
      simp [GlobalWrites.contains, hv]
    · refine ⟨v, Or.inr (Or.inr ⟨hc, ?_⟩)⟩
      simp [GlobalWrites.contains, hv]
  · rintro ⟨v, ⟨hv, hc⟩ | ⟨hc, hv⟩ | ⟨ha, hb⟩⟩
    · exact Or.inl (Or.inl ⟨v, hv, hc⟩)
    · exact Or.inl (Or.inr ⟨v, hv, hc⟩)
    · simp only [GlobalWrites.contains, Bool.or_eq_true, decide_eq_true_eq] at ha hb
      rcases ha with hae | hav
      · rcases hb with hbe | hbv
        · exact Or.inr (Or.inl (Or.inl ⟨hae, hbe⟩))
        · refine Or.inr (Or.inr ⟨v, hbv, ?_⟩)
          simp [GlobalWrites.contains, hae]
      · refine Or.inr (Or.inl (Or.inr ⟨v, hav, ?_⟩))
        simp only [GlobalWrites.contains, Bool.or_eq_true, decide_eq_true_eq]
        exact hb

/-- Commutativity of the collision predicate. -/
theorem may_collide_comm (a b : Globals) :
    a.may_collide_with b = b.may_collide_with a := by
  have key : (a.may_collide_with b = true) ↔ (b.may_collide_with a = true) := by
    rw [may_collide_iff, may_collide_iff]
    constructor <;>
      · rintro ⟨v, h | h | h⟩
        · exact ⟨v, Or.inr (Or.inl ⟨h.2, h.1⟩)⟩
        · exact ⟨v, Or.inl ⟨h.2, h.1⟩⟩
        · exact ⟨v, Or.inr (Or.inr ⟨h.2, h.1⟩)⟩
  cases hab : a.may_collide_with b <;> cases hba : b.may_collide_with a <;>
    simp_all

/-- C4: the collision predicate is commutative and holds iff some global
variable is read by one summary and written by the other, or written by
both, under universal-write semantics: a universal write collides with any
non-empty reads or exact writes of the other side and with another
universal write. -/
theorem claim_C4 :
    (∀ a b : Globals, a.may_collide_with b = b.may_collide_with a) ∧
    (∀ a b : Globals, a.may_collide_with b = true ↔
      ∃ v : Var, (v ∈ a.reads ∧ b.writes.contains v = true) ∨
        (a.writes.contains v = true ∧ v ∈ b.reads) ∨
        (a.writes.contains v = true ∧ b.writes.contains v = true)) ∧
    (∀ a b : Globals, a.writes.everything = true → b.reads.Nonempty →
        a.may_collide_with b = true) ∧
    (∀ a b : Globals, a.writes.everything = true → b.writes.vars.Nonempty →
        a.may_collide_with b = true) ∧
    (∀ a b : Globals, a.writes.everything = true → b.writes.everything = true →
        a.may_collide_with b = true) := by
  refine ⟨may_collide_comm, may_collide_iff, ?_, ?_, ?_⟩
  · intro a b hae ⟨v, hv⟩
    refine (may_collide_iff a b).mpr ⟨v, Or.inr (Or.inl ⟨?_, hv⟩)⟩
    simp [GlobalWrites.contains, hae]
  · intro a b hae ⟨v, hv⟩
    refine (may_collide_iff a b).mpr ⟨v, Or.inr (Or.inr ⟨?_, ?_⟩)⟩ <;>
      simp [GlobalWrites.contains, hae, hv]
  · intro a b hae hbe
    refine (may_collide_iff a b).mpr ⟨0, Or.inr (Or.inr ⟨?_, ?_⟩)⟩ <;>
      simp [GlobalWrites.contains, hae, hbe]

/-- Closed instance of C4's universal-write clauses at concrete summaries,
obtained by applying the theorem. -/
theorem claim_C4_witness :
    (Globals.mk ∅ ⟨∅, true⟩).may_collide_with (Globals.mk {4} ⟨∅, false⟩) = true ∧
    (Globals.mk ∅ ⟨∅, true⟩).may_collide_with (Globals.mk ∅ ⟨{6}, false⟩) = true ∧
    (Globals.mk ∅ ⟨∅, true⟩).may_collide_with (Globals.mk ∅ ⟨∅, true⟩) = true :=
  ⟨claim_C4.2.2.1 _ _ (by decide) ⟨4, by decide⟩,
    claim_C4.2.2.2.1 _ _ (by decide) ⟨6, by decide⟩,
    claim_C4.2.2.2.2 _ _ (by decide) (by decide)⟩

/-! Subsumption lemmas feeding the transitive-summary claim. -/

theorem Globals.subsumes_refl (a : Globals) : a.subsumes a :=
  ⟨fun _ h => h, fun _ h => h⟩

theorem Globals.subsumes_trans {a b c : Globals} (h1 : a.subsumes b)
    (h2 : b.subsumes c) : a.subsumes c :=
  ⟨fun v hv => h1.1 v (h2.1 v hv), fun v hv => h1.2 v (h2.2 v hv)⟩

theorem Globals.union_subsumes_left (a b : Globals) :
    (a.union_with b).subsumes a := by
  constructor
  · intro v hv
    exact Finset.mem_union_left _ hv
  · intro v hv
    exact (GlobalWrites.contains_union_iff _ _ _).mpr (Or.inl hv)

theorem Globals.union_subsumes_right (a b : Globals) :
    (a.union_with b).subsumes b := by
  constructor
  · intro v hv
    exact Finset.mem_union_right _ hv
  · intro v hv
    exact (GlobalWrites.contains_union_iff _ _ _).mpr (Or.inr hv)

theorem unionFold_subsumes_acc (l : List Task) (acc : Globals) :
    (l.foldl (fun a t => a.union_with t.direct_global) acc).subsumes acc := by
  induction l generalizing acc with
  | nil => exact Globals.subsumes_refl acc
  | cons t rest ih =>
      exact Globals.subsumes_trans (ih _) (Globals.union_subsumes_left _ _)

theorem unionFold_subsumes_mem (l : List Task) (acc : Globals) (u : Task)
    (hu : u ∈ l) :
    (l.foldl (fun a t => a.union_with t.direct_global) acc).subsumes
      u.direct_global := by
  induction l generalizing acc with
  | nil => cases hu
  | cons t rest ih =>
      rcases List.mem_cons.mp hu with rfl | h
      · exact Globals.subsumes_trans (unionFold_subsumes_acc rest _)
          (Globals.union_subsumes_right _ _)
      · exact ih _ h

/-- C2: after the transitive stage, every task's transitive summary equals
the union of the direct summaries of all tasks, hence subsumes every task's
direct summary, in particular its own. -/
theorem claim_C2 (heap : List Task) (t : Task)
    (ht : t ∈ compute_transitive_globals heap) :
    t.transitive_global = unionAllGlobals heap ∧
      (∀ u ∈ heap, t.transitive_global.subsumes u.direct_global) ∧
      t.transitive_global.subsumes t.direct_global := by
  rcases List.mem_map.mp ht with ⟨t0, ht0, rfl⟩
  refine ⟨rfl, ?_, ?_⟩
  · intro u hu
    exact unionFold_subsumes_mem heap Globals.empty u hu
  · exact unionFold_subsumes_mem heap Globals.empty t0 ht0

/-- Closed instance of C2's statement at a one-task heap, obtained by
applying the theorem. -/
theorem claim_C2_witness :
    ({ Task.mk0 sentinelName with
        transitive_global := unionAllGlobals [Task.mk0 sentinelName] } :
          Task).transitive_global = unionAllGlobals [Task.mk0 sentinelName] ∧
      (∀ u ∈ [Task.mk0 sentinelName],
        ({ Task.mk0 sentinelName with
            transitive_global := unionAllGlobals [Task.mk0 sentinelName] } :
              Task).transitive_global.subsumes u.direct_global) ∧
      ({ Task.mk0 sentinelName with
          transitive_global := unionAllGlobals [Task.mk0 sentinelName] } :
            Task).transitive_global.subsumes
        ({ Task.mk0 sentinelName with
            transitive_global := unionAllGlobals [Task.mk0 sentinelName] } :
              Task).direct_global :=
  claim_C2 [Task.mk0 sentinelName] _ (by decide)

/-- C1 (evidence): on this well-formed input compute_tasks returns without
error, but the returned object has main_task unset and every task on the
heap still carries default-empty direct and transitive summaries, even
though the task's only transition writes variable 1 — compute_tasks as
written never invokes the aggregation or transitive stages promised by its
own postcondition R3. -/
theorem claim_C1 :
    ((compute_tasks exNtsMain ("main".toList) Mem.empty).toOption.isSome
        = true) ∧
      (∀ r ∈ (compute_tasks exNtsMain ("main".toList) Mem.empty).toOption,
        r.2.main_task = none ∧
          r.2.tasks = [1] ∧
          (∀ tk ∈ r.2.task_heap, tk.direct_global = Globals.empty ∧
            tk.transitive_global = Globals.empty) ∧
          (alookup r.1.tdata 10).isSome = true) ∧
      (⟨10, ⟨∅, ⟨{1}, false⟩⟩⟩ : Tr).effect.writes.contains 1 = true := by
  decide

/-! Infrastructure lemmas: association lists, heap indexing, evolution. -/

theorem alookup_cons_self {α β : Type} [DecidableEq α] (k : α) (v : β)
    (l : List (α × β)) : alookup ((k, v) :: l) k = some v := by
  simp [alookup]

theorem alookup_cons_ne {α β : Type} [DecidableEq α] {k x : α} (v : β)
    (l : List (α × β)) (h : x ≠ k) : alookup ((k, v) :: l) x = alookup l x := by
  simp [alookup, h]

theorem alookup_mem {α β : Type} [DecidableEq α] {l : List (α × β)} {k : α}
    {v : β} (h : alookup l k = some v) : (k, v) ∈ l := by
  induction l with
  | nil => simp [alookup] at h
  | cons p rest ih =>
      obtain ⟨pk, pv⟩ := p
      by_cases hk : k = pk
      · subst hk
        rw [alookup_cons_self] at h
        cases h
        exact List.mem_cons_self _ _
      · rw [alookup_cons_ne _ _ hk] at h
        exact List.mem_cons_of_mem _ (ih h)

theorem nthTask_lt {l : List Task} {i : Nat} {tk : Task}
    (h : nthTask l i = some tk) : i < l.length := by
  induction l generalizing i with
  | nil => simp [nthTask] at h
  | cons t rest ih =>
      cases i with
      | zero => simp
      | succ n =>
          simp only [nthTask] at h
          simpa using Nat.succ_lt_succ (ih h)

theorem nthTask_append {l l' : List Task} {i : Nat} {tk : Task}
    (h : nthTask l i = some tk) : nthTask (l ++ l') i = some tk := by
  induction l generalizing i with
  | nil => simp [nthTask] at h
  | cons t rest ih =>
      cases i with
      | zero => simpa [nthTask] using h
      | succ n =>
          simp only [nthTask] at h ⊢
          exact ih h

theorem nthTask_concat_length (l : List Task) (a : Task) :
    nthTask (l ++ [a]) l.length = some a := by
  induction l with
  | nil => rfl
  | cons t rest ih => simpa [nthTask] using ih

theorem Mem.sext_refl (m : Mem) : m.sext m :=
  ⟨fun _ _ h => h, fun _ _ h => h⟩

theorem Mem.sext_trans {m1 m2 m3 : Mem} (h1 : m1.sext m2) (h2 : m2.sext m3) :
    m1.sext m3 :=
  ⟨fun x v h => h2.1 x v (h1.1 x v h), fun x v h => h2.2 x v (h1.2 x v h)⟩

theorem Mem.sext_none {m m' : Mem} (h : m.sext m') {x : Nat}
    (hx : alookup m'.sdata x = none) : alookup m.sdata x = none := by
  cases hv : alookup m.sdata x with
  | none => rfl
  | some v => rw [h.1 x v hv] at hx; cases hx

theorem setState_lookup_self (mem : Mem) (sid : Nat) (si : StateInfo) :
    alookup (mem.setState sid si).sdata sid = some si :=
  alookup_cons_self _ _ _

theorem setState_lookup_ne (mem : Mem) (sid : Nat) (si : StateInfo) {x : Nat}
    (h : x ≠ sid) :
    alookup (mem.setState sid si).sdata x = alookup mem.sdata x :=
  alookup_cons_ne _ _ h

theorem setState_tdata (mem : Mem) (sid : Nat) (si : StateInfo) :
    (mem.setState sid si).tdata = mem.tdata := rfl

theorem setState_sext {mem : Mem} {sid : Nat} (si : StateInfo)
    (h : alookup mem.sdata sid = none) : mem.sext (mem.setState sid si) := by
  constructor
  · intro x v hv
    have hx : x ≠ sid := by
      intro he
      rw [he, h] at hv
      cases hv
    rw [setState_lookup_ne _ _ _ hx]
    exact hv
  · intro x v hv
    exact hv

theorem setTrans_lookup_self (mem : Mem) (tid : Nat) (ti : TransitionInfo) :
    alookup (mem.setTrans tid ti).tdata tid = some ti :=
  alookup_cons_self _ _ _

theorem setTrans_lookup_ne (mem : Mem) (tid : Nat) (ti : TransitionInfo)
    {x : Nat} (h : x ≠ tid) :
    alookup (mem.setTrans tid ti).tdata x = alookup mem.tdata x :=
  alookup_cons_ne _ _ h

theorem setTrans_sdata (mem : Mem) (tid : Nat) (ti : TransitionInfo) :
    (mem.setTrans tid ti).sdata = mem.sdata := rfl

theorem TasksObj.ext_refl (ts : TasksObj) : ts.ext ts :=
  ⟨rfl, rfl, rfl, rfl, fun _ _ h => h, fun _ _ h => h⟩

theorem TasksObj.ext_trans {t1 t2 t3 : TasksObj} (h1 : t1.ext t2)
    (h2 : t2.ext t3) : t1.ext t3 :=
  ⟨h2.1.trans h1.1, h2.2.1.trans h1.2.1, h2.2.2.1.trans h1.2.2.1,
    h2.2.2.2.1.trans h1.2.2.2.1,
    fun i tk h => h2.2.2.2.2.1 i tk (h1.2.2.2.2.1 i tk h),
    fun nm tid h => h2.2.2.2.2.2 nm tid (h1.2.2.2.2.2 nm tid h)⟩

/-! Lemmas about the lookup-or-create step. -/

theorem getOrCreate_ext (ts : TasksObj) (nm : List Char) :
    ts.ext (ts.getOrCreate nm).1 := by
  unfold TasksObj.getOrCreate
  cases h : alookup ts.name_to_task nm with
  | some tid => exact TasksObj.ext_refl ts
  | none =>
      refine ⟨rfl, rfl, rfl, rfl, ?_, ?_⟩
      · intro i tk hi
        exact nthTask_append hi
      · intro nm2 tid2 h2
        have hne : nm2 ≠ nm := by
          intro he
          rw [he, h] at h2
          cases h2
        simpa [alookup_cons_ne _ _ hne] using h2

theorem getOrCreate_lookup (ts : TasksObj) (nm : List Char) :
    alookup (ts.getOrCreate nm).1.name_to_task nm =
      some (ts.getOrCreate nm).2 := by
  unfold TasksObj.getOrCreate
  cases h : alookup ts.name_to_task nm with
  | some tid => simpa using h
  | none => simp [alookup_cons_self]

theorem getOrCreate_consistent {ts : TasksObj} (nm : List Char)
    (hc : ts.consistent) : (ts.getOrCreate nm).1.consistent := by
  unfold TasksObj.getOrCreate
  cases h : alookup ts.name_to_task nm with
  | some tid => exact hc
  | none =>
      obtain ⟨hlt, hmap⟩ := hc
      constructor
      · simpa using Nat.lt_succ_of_lt hlt
      · intro p hp
        rcases List.mem_cons.mp hp with rfl | hp2
        · exact ⟨hlt, ⟨Task.mk0 nm, nthTask_concat_length _ _, rfl⟩⟩
        · obtain ⟨hgt, tk, htk, hname⟩ := hmap p hp2
          exact ⟨hgt, tk, nthTask_append htk, hname⟩

theorem getOrCreate_name {ts : TasksObj} (nm : List Char)
    (hc : ts.consistent) :
    ∃ tk, nthTask (ts.getOrCreate nm).1.task_heap (ts.getOrCreate nm).2 =
        some tk ∧ tk.name = nm := by
  unfold TasksObj.getOrCreate
  cases h : alookup ts.name_to_task nm with
  | some tid =>
      obtain ⟨_, tk, htk, hname⟩ := hc.2 (nm, tid) (alookup_mem h)
      exact ⟨tk, by simpa using htk, hname⟩
  | none => exact ⟨Task.mk0 nm, nthTask_concat_length _ _, rfl⟩

theorem getOrCreate_gt {ts : TasksObj} (nm : List Char) (hc : ts.consistent) :
    ts.idle_worker_task < (ts.getOrCreate nm).2 := by
  unfold TasksObj.getOrCreate
  cases h : alookup ts.name_to_task nm with
  | some tid => exact (hc.2 (nm, tid) (alookup_mem h)).1
  | none => exact hc.1

/-! Lemmas about the per-state partition step. -/

theorem set2_sext {mem : Mem} {sid : Nat} (a b : StateInfo)
    (h : alookup mem.sdata sid = none) :
    mem.sext ((mem.setState sid a).setState sid b) := by
  constructor
  · intro x v hv
    have hx : x ≠ sid := by
      intro he
      rw [he, h] at hv
      cases hv
    rw [setState_lookup_ne _ _ _ hx, setState_lookup_ne _ _ _ hx]
    exact hv
  · intro x v hv
    exact hv

theorem processState_ok {sba : Bool} {bnName : List Char} {s : St} {mem : Mem}
    {ts : TasksObj} {mem1 : Mem} {ts1 : TasksObj}
    (h : processState sba bnName s mem ts = .ok (mem1, ts1)) :
    alookup mem.sdata s.sid = none ∧ mem.sext mem1 ∧ ts.ext ts1 ∧
      (ts.consistent → ts1.consistent) ∧
      mem1.tdata = mem.tdata ∧
      (∀ x, x ≠ s.sid → alookup mem1.sdata x = alookup mem.sdata x) ∧
      (alookup mem1.sdata s.sid).isSome = true ∧
      (sba = true → s.origin.isSome = true) := by
  unfold processState at h
  by_cases hg : (alookup mem.sdata s.sid).isSome = true
  · rw [if_pos hg] at h
    exact Except.noConfusion h
  · rw [if_neg hg] at h
    rw [Option.not_isSome_iff_eq_none] at hg
    cases sba with
    | false =>
        rw [if_neg (by simp)] at h
        simp only [Except.ok.injEq, Prod.mk.injEq] at h
        obtain ⟨h1, h2⟩ := h
        subst h1
        subst h2
        refine ⟨hg, set2_sext _ _ hg, getOrCreate_ext ts _, ?_, rfl, ?_, ?_, ?_⟩
        · intro hc
          exact getOrCreate_consistent _ hc
        · intro x hx
          rw [setState_lookup_ne _ _ _ hx, setState_lookup_ne _ _ _ hx]
        · rw [setState_lookup_self]
          rfl
        · intro hb
          cases hb
    | true =>
        rw [if_pos rfl] at h
        cases ho : s.origin with
        | none =>
            simp only [ho] at h
            exact Except.noConfusion h
        | some o =>
            simp only [ho] at h
            by_cases hsep : ':' ∈ o
            · rw [if_pos hsep] at h
              simp only [Except.ok.injEq, Prod.mk.injEq] at h
              obtain ⟨h1, h2⟩ := h
              subst h1
              subst h2
              refine ⟨hg, set2_sext _ _ hg, getOrCreate_ext ts _, ?_, rfl,
                ?_, ?_, ?_⟩
              · intro hc
                exact getOrCreate_consistent _ hc
              · intro x hx
                rw [setState_lookup_ne _ _ _ hx, setState_lookup_ne _ _ _ hx]
              · rw [setState_lookup_self]
                rfl
              · intro _
                rfl
            · rw [if_neg hsep] at h
              simp only [Except.ok.injEq, Prod.mk.injEq] at h
              obtain ⟨h1, h2⟩ := h
              subst h1
              subst h2
              refine ⟨hg, set2_sext _ _ hg, TasksObj.ext_refl ts, id, rfl,
                ?_, ?_, ?_⟩
              · intro x hx
                rw [setState_lookup_ne _ _ _ hx, setState_lookup_ne _ _ _ hx]
              · rw [setState_lookup_self]
                rfl
              · intro _
                rfl

theorem processState_err {sba : Bool} {bnName : List Char} {s : St} {mem : Mem}
    {ts : TasksObj} {e : PassError} {m2 : Mem} {t2 : TasksObj}
    (h : processState sba bnName s mem ts = .error (e, m2, t2)) :
    (e = .doubleInitState s.sid ∧ (alookup mem.sdata s.sid).isSome = true ∧
        m2 = mem ∧ t2 = ts) ∨
      (e = .missingOrigin s.sid ∧ alookup mem.sdata s.sid = none ∧
        sba = true ∧ s.origin = none ∧
        m2 = mem.setState s.sid ⟨s.sid, none⟩ ∧ t2 = ts) := by
  unfold processState at h
  by_cases hg : (alookup mem.sdata s.sid).isSome = true
  · rw [if_pos hg] at h
    simp only [Except.error.injEq, Prod.mk.injEq] at h
    obtain ⟨h1, h2, h3⟩ := h
    exact Or.inl ⟨h1.symm, hg, h2.symm, h3.symm⟩
  · rw [if_neg hg] at h
    rw [Option.not_isSome_iff_eq_none] at hg
    cases sba with
    | false =>
        rw [if_neg (by simp)] at h
        exact Except.noConfusion h
    | true =>
        rw [if_pos rfl] at h
        cases ho : s.origin with
        | none =>
            simp only [ho] at h
            simp only [Except.error.injEq, Prod.mk.injEq] at h
            obtain ⟨h1, h2, h3⟩ := h
            exact Or.inr ⟨h1.symm, hg, rfl, rfl, h2.symm, h3.symm⟩
        | some o =>
            simp only [ho] at h
            by_cases hsep : ':' ∈ o
            · rw [if_pos hsep] at h
              exact Except.noConfusion h
            · rw [if_neg hsep] at h
              exact Except.noConfusion h

theorem processState_owner_annot {bnName : List Char} {s : St} {mem : Mem}
    {ts : TasksObj} {mem1 : Mem} {ts1 : TasksObj} {o : List Char}
    (h : processState true bnName s mem ts = .ok (mem1, ts1))
    (ho : s.origin = some o) (hc : ts.consistent) :
    (':' ∈ o →
      ∃ tid tk, alookup mem1.sdata s.sid = some ⟨s.sid, some tid⟩ ∧
        nthTask ts1.task_heap tid = some tk ∧
        tk.name = o.takeWhile (fun c => c != ':') ∧
        alookup ts1.name_to_task (o.takeWhile (fun c => c != ':')) = some tid ∧
        ts.idle_worker_task < tid) ∧
      (':' ∉ o →
        alookup mem1.sdata s.sid = some ⟨s.sid, some ts.idle_worker_task⟩ ∧
          ts1 = ts) := by
  unfold processState at h
  by_cases hg : (alookup mem.sdata s.sid).isSome = true
  · rw [if_pos hg] at h
    exact Except.noConfusion h
  · rw [if_neg hg] at h
    rw [if_pos rfl] at h
    simp only [ho] at h
    by_cases hsep : ':' ∈ o
    · rw [if_pos hsep] at h
      simp only [Except.ok.injEq, Prod.mk.injEq] at h
      obtain ⟨h1, h2⟩ := h
      subst h1
      subst h2
      constructor
      · intro _
        obtain ⟨tk, htk, hname⟩ :=
          getOrCreate_name (o.takeWhile (fun c => c != ':')) hc
        refine ⟨(ts.getOrCreate (o.takeWhile (fun c => c != ':'))).2, tk,
          setState_lookup_self _ _ _, htk, hname, getOrCreate_lookup _ _,
          getOrCreate_gt _ hc⟩
      · intro hn
        exact absurd hsep hn
    · rw [if_neg hsep] at h
      simp only [Except.ok.injEq, Prod.mk.injEq] at h
      obtain ⟨h1, h2⟩ := h
      subst h1
      subst h2
      exact ⟨fun hs => absurd hs hsep,
        fun _ => ⟨setState_lookup_self _ _ _, rfl⟩⟩

/-! Lemmas about the per-unit partition loop. -/

theorem splitStates_ok_facts {sba : Bool} {bnName : List Char}
    {states : List St} {mem : Mem} {ts : TasksObj} {mem' : Mem}
    {ts' : TasksObj}
    (h : splitStates sba bnName states mem ts = .ok (mem', ts')) :
    mem.sext mem' ∧ ts.ext ts' ∧ (ts.consistent → ts'.consistent) ∧
      mem'.tdata = mem.tdata ∧
      (∀ x, x ∉ states.map St.sid →
        alookup mem'.sdata x = alookup mem.sdata x) := by
  induction states generalizing mem ts with
  | nil =>
      simp only [splitStates, Except.ok.injEq, Prod.mk.injEq] at h
      obtain ⟨h1, h2⟩ := h
      subst h1
      subst h2
      exact ⟨Mem.sext_refl _, TasksObj.ext_refl _, id, rfl, fun _ _ => rfl⟩
  | cons s rest ih =>
      simp only [splitStates] at h
      cases hp : processState sba bnName s mem ts with
      | error e =>
          rw [hp] at h
          exact Except.noConfusion h
      | ok pr =>
          obtain ⟨m1, t1⟩ := pr
          rw [hp] at h
          obtain ⟨p1, p2, p3, p4, p5, p6, p7, p8⟩ := processState_ok hp
          obtain ⟨i1, i2, i3, i4, i5⟩ := ih h
          refine ⟨Mem.sext_trans p2 i1, TasksObj.ext_trans p3 i2,
            fun hc => i3 (p4 hc), i4.trans p5, ?_⟩
          intro x hx
          simp only [List.map_cons, List.mem_cons, not_or] at hx
          rw [i5 x hx.2, p6 x hx.1]

theorem splitStates_ok_input {sba : Bool} {bnName : List Char}
    {states : List St} {mem : Mem} {ts : TasksObj} {mem' : Mem}
    {ts' : TasksObj} (hnd : (states.map St.sid).Nodup)
    (h : splitStates sba bnName states mem ts = .ok (mem', ts')) :
    ∀ s2 ∈ states, alookup mem.sdata s2.sid = none ∧
      (sba = true → s2.origin.isSome = true) := by
  induction states generalizing mem ts with
  | nil =>
      intro s2 hs
      cases hs
  | cons s rest ih =>
      simp only [splitStates] at h
      cases hp : processState sba bnName s mem ts with
      | error e =>
          rw [hp] at h
          exact Except.noConfusion h
      | ok pr =>
          obtain ⟨m1, t1⟩ := pr
          rw [hp] at h
          obtain ⟨p1, p2, p3, p4, p5, p6, p7, p8⟩ := processState_ok hp
          simp only [List.map_cons, List.nodup_cons] at hnd
          intro s2 hs2
          rcases List.mem_cons.mp hs2 with rfl | hs2
          · exact ⟨p1, p8⟩
          · have hr := ih hnd.2 h s2 hs2
            have hne : s2.sid ≠ s.sid := by
              intro he
              exact hnd.1 (he ▸ List.mem_map_of_mem St.sid hs2)
            exact ⟨(p6 s2.sid hne) ▸ hr.1, hr.2⟩

theorem splitStates_ok_of {sba : Bool} {bnName : List Char}
    {states : List St} {mem : Mem} {ts : TasksObj}
    (hnd : (states.map St.sid).Nodup)
    (h1 : ∀ s ∈ states, alookup mem.sdata s.sid = none)
    (h2 : sba = true → ∀ s ∈ states, s.origin.isSome = true) :
    ∃ mem' ts', splitStates sba bnName states mem ts = .ok (mem', ts') := by
  induction states generalizing mem ts with
  | nil => exact ⟨mem, ts, rfl⟩
  | cons s rest ih =>
      have hs0 : alookup mem.sdata s.sid = none := h1 s (List.mem_cons_self s rest)
      have hnoerr : ∀ e, processState sba bnName s mem ts ≠ .error e := by
        intro e hcon
        unfold processState at hcon
        rw [if_neg (by rw [hs0]; simp)] at hcon
        cases sba with
        | false =>
            rw [if_neg (by simp)] at hcon
            exact Except.noConfusion hcon
        | true =>
            rw [if_pos rfl] at hcon
            have hsome := h2 rfl s (List.mem_cons_self s rest)
            cases ho : s.origin with
            | none => rw [ho] at hsome; cases hsome
            | some o =>
                simp only [ho] at hcon
                by_cases hsep : ':' ∈ o
                · rw [if_pos hsep] at hcon
                  exact Except.noConfusion hcon
                · rw [if_neg hsep] at hcon
                  exact Except.noConfusion hcon
      have hok : ∃ m1 t1, processState sba bnName s mem ts = .ok (m1, t1) := by
        cases hr : processState sba bnName s mem ts with
        | error e => exact absurd hr (hnoerr e)
        | ok pr =>
            obtain ⟨m1, t1⟩ := pr
            exact ⟨m1, t1, rfl⟩
      obtain ⟨m1, t1, hp⟩ := hok
      obtain ⟨p1, p2, p3, p4, p5, p6, p7, p8⟩ := processState_ok hp
      simp only [List.map_cons, List.nodup_cons] at hnd
      have h1' : ∀ s2 ∈ rest, alookup m1.sdata s2.sid = none := by
        intro s2 hs2
        have hne : s2.sid ≠ s.sid := by
          intro he
          exact hnd.1 (he ▸ List.mem_map_of_mem St.sid hs2)
        rw [p6 s2.sid hne]
        exact h1 s2 (List.mem_cons_of_mem s hs2)
      have h2' : sba = true → ∀ s2 ∈ rest, s2.origin.isSome = true :=
        fun hb s2 hs2 => h2 hb s2 (List.mem_cons_of_mem s hs2)
      obtain ⟨mem', ts', hsp⟩ := ih hnd.2 h1' h2'
      refine ⟨mem', ts', ?_⟩
      simp only [splitStates, hp]
      exact hsp

theorem splitStates_err_missing {sba : Bool} {bnName : List Char}
    {states : List St} {mem : Mem} {ts : TasksObj} {sid : Nat} {m2 : Mem}
    {t2 : TasksObj}
    (h : splitStates sba bnName states mem ts =
      .error (.missingOrigin sid, m2, t2)) :
    alookup m2.sdata sid = some ⟨sid, none⟩ ∧ alookup mem.sdata sid = none ∧
      mem.sext m2 ∧ sba = true ∧
      ∃ s2 ∈ states, s2.sid = sid ∧ s2.origin = none := by
  induction states generalizing mem ts with
  | nil => exact Except.noConfusion h
  | cons s rest ih =>
      simp only [splitStates] at h
      cases hp : processState sba bnName s mem ts with
      | error e =>
          rw [hp] at h
          injection h with he
          subst he
          rcases processState_err hp with ⟨he, _, _, _⟩ | ⟨he, hg, hb, ho, hm, ht⟩
          · exact PassError.noConfusion he
          · injection he with hsid
            subst hsid
            subst hm
            refine ⟨setState_lookup_self _ _ _, hg, setState_sext _ hg, hb,
              s, List.mem_cons_self s rest, rfl, ho⟩
      | ok pr =>
          obtain ⟨m1, t1⟩ := pr
          rw [hp] at h
          obtain ⟨p1, p2, p3, p4, p5, p6, p7, p8⟩ := processState_ok hp
          obtain ⟨i1, i2, i3, i4, s2, hs2, hsid, ho⟩ := ih h
          exact ⟨i1, Mem.sext_none p2 i2, Mem.sext_trans p2 i3, i4,
            s2, List.mem_cons_of_mem s hs2, hsid, ho⟩

theorem processState_ok_owner2 {sba : Bool} {bnName : List Char} {s : St}
    {mem : Mem} {ts : TasksObj} {mem1 : Mem} {ts1 : TasksObj}
    (h : processState sba bnName s mem ts = .ok (mem1, ts1)) :
    ∃ tid, alookup mem1.sdata s.sid = some ⟨s.sid, some tid⟩ := by
  unfold processState at h
  by_cases hg : (alookup mem.sdata s.sid).isSome = true
  · rw [if_pos hg] at h
    exact Except.noConfusion h
  · rw [if_neg hg] at h
    cases sba with
    | false =>
        rw [if_neg (by simp)] at h
        simp only [Except.ok.injEq, Prod.mk.injEq] at h
        obtain ⟨h1, h2⟩ := h
        subst h1
        exact ⟨_, setState_lookup_self _ _ _⟩
    | true =>
        rw [if_pos rfl] at h
        cases ho : s.origin with
        | none =>
            simp only [ho] at h
            exact Except.noConfusion h
        | some o =>
            simp only [ho] at h
            by_cases hsep : ':' ∈ o
            · rw [if_pos hsep] at h
              simp only [Except.ok.injEq, Prod.mk.injEq] at h
              obtain ⟨h1, h2⟩ := h
              subst h1
              exact ⟨_, setState_lookup_self _ _ _⟩
            · rw [if_neg hsep] at h
              simp only [Except.ok.injEq, Prod.mk.injEq] at h
              obtain ⟨h1, h2⟩ := h
              subst h1
              exact ⟨_, setState_lookup_self _ _ _⟩

theorem splitStates_ok_owner_all {sba : Bool} {bnName : List Char}
    {states : List St} {mem : Mem} {ts : TasksObj} {mem' : Mem}
    {ts' : TasksObj}
    (h : splitStates sba bnName states mem ts = .ok (mem', ts')) :
    ∀ s ∈ states, ∃ tid,
      alookup mem'.sdata s.sid = some ⟨s.sid, some tid⟩ := by
  induction states generalizing mem ts with
  | nil =>
      intro s hs
      cases hs
  | cons s0 rest ih =>
      simp only [splitStates] at h
      cases hp : processState sba bnName s0 mem ts with
      | error e =>
          rw [hp] at h
          exact Except.noConfusion h
      | ok pr =>
          obtain ⟨m1, t1⟩ := pr
          rw [hp] at h
          intro s hs
          rcases List.mem_cons.mp hs with rfl | hs
          · obtain ⟨tid, htid⟩ := processState_ok_owner2 hp
            exact ⟨tid, (splitStates_ok_facts h).1.1 _ _ htid⟩
          · exact ih h s hs

theorem splitStates_err_missing_scan {sba : Bool} {bnName : List Char}
    {states : List St} {mem : Mem} {ts : TasksObj} {sid : Nat} {m2 : Mem}
    {t2 : TasksObj}
    (h : splitStates sba bnName states mem ts =
      .error (.missingOrigin sid, m2, t2)) :
    ∃ pre s0 post, states = pre ++ s0 :: post ∧ s0.sid = sid ∧
      s0.origin = none ∧
      ∀ s2 ∈ pre, ∃ tid,
        alookup m2.sdata s2.sid = some ⟨s2.sid, some tid⟩ := by
  induction states generalizing mem ts with
  | nil => exact Except.noConfusion h
  | cons s rest ih =>
      simp only [splitStates] at h
      cases hp : processState sba bnName s mem ts with
      | error e =>
          rw [hp] at h
          injection h with he
          subst he
          rcases processState_err hp with ⟨he, _, _, _⟩ | ⟨he, hg, hb, ho, hm, ht⟩
          · exact PassError.noConfusion he
          · injection he with hsid
            subst hsid
            exact ⟨[], s, rest, rfl, rfl, ho,
              fun s2 hs2 => absurd hs2 (List.not_mem_nil s2)⟩
      | ok pr =>
          obtain ⟨m1, t1⟩ := pr
          rw [hp] at h
          obtain ⟨pre, s0, post, hdec, hsid, ho, hrec⟩ := ih h
          have hsx : m1.sext m2 := (splitStates_err_missing h).2.2.1
          refine ⟨s :: pre, s0, post,
            by rw [hdec]; exact (List.cons_append _ _ _).symm, hsid, ho, ?_⟩
          intro s2 hs2
          rcases List.mem_cons.mp hs2 with rfl | hs2
          · obtain ⟨tid, htid⟩ := processState_ok_owner2 hp
            exact ⟨tid, hsx.1 _ _ htid⟩
          · exact hrec s2 hs2

theorem splitStates_err_double {sba : Bool} {bnName : List Char}
    {states : List St} {mem : Mem} {ts : TasksObj} {sid : Nat} {m2 : Mem}
    {t2 : TasksObj} (hnd : (states.map St.sid).Nodup)
    (h : splitStates sba bnName states mem ts =
      .error (.doubleInitState sid, m2, t2)) :
    (alookup mem.sdata sid).isSome = true ∧ ∃ s2 ∈ states, s2.sid = sid := by
  induction states generalizing mem ts with
  | nil => exact Except.noConfusion h
  | cons s rest ih =>
      simp only [splitStates] at h
      cases hp : processState sba bnName s mem ts with
      | error e =>
          rw [hp] at h
          injection h with he
          subst he
          rcases processState_err hp with ⟨he, hg, _, _⟩ | ⟨he, _, _, _, _, _⟩
          · injection he with hsid
            subst hsid
            exact ⟨hg, s, List.mem_cons_self s rest, rfl⟩
          · exact PassError.noConfusion he
      | ok pr =>
          obtain ⟨m1, t1⟩ := pr
          rw [hp] at h
          obtain ⟨p1, p2, p3, p4, p5, p6, p7, p8⟩ := processState_ok hp
          simp only [List.map_cons, List.nodup_cons] at hnd
          obtain ⟨i1, s2, hs2, hsid⟩ := ih hnd.2 h
          have hne : sid ≠ s.sid := by
            intro he
            exact hnd.1 (he ▸ hsid ▸ List.mem_map_of_mem St.sid hs2)
          exact ⟨(p6 sid hne) ▸ i1, s2, List.mem_cons_of_mem s hs2, hsid⟩

theorem splitStates_owner {bnName : List Char} {states : List St} {mem : Mem}
    {ts : TasksObj} {mem' : Mem} {ts' : TasksObj} (hc : ts.consistent)
    (h : splitStates true bnName states mem ts = .ok (mem', ts')) :
    ∀ s ∈ states, ∀ o, s.origin = some o →
      (':' ∈ o →
        ∃ tid tk, alookup mem'.sdata s.sid = some ⟨s.sid, some tid⟩ ∧
          nthTask ts'.task_heap tid = some tk ∧
          tk.name = o.takeWhile (fun c => c != ':') ∧
          alookup ts'.name_to_task (o.takeWhile (fun c => c != ':')) =
            some tid ∧
          ts.idle_worker_task < tid) ∧
      (':' ∉ o →
        alookup mem'.sdata s.sid =
          some ⟨s.sid, some ts.idle_worker_task⟩) := by
  induction states generalizing mem ts with
  | nil =>
      intro s hs
      cases hs
  | cons s0 rest ih =>
      simp only [splitStates] at h
      cases hp : processState true bnName s0 mem ts with
      | error e =>
          rw [hp] at h
          exact Except.noConfusion h
      | ok pr =>
          obtain ⟨m1, t1⟩ := pr
          rw [hp] at h
          obtain ⟨p1, p2, p3, p4, p5, p6, p7, p8⟩ := processState_ok hp
          obtain ⟨r1, r2, r3, r4, r5⟩ := splitStates_ok_facts h
          intro s hs o ho
          rcases List.mem_cons.mp hs with rfl | hs
          · obtain ⟨w1, w2⟩ := processState_owner_annot hp ho hc
            constructor
            · intro hsep
              obtain ⟨tid, tk, hm, hh, hn, hmap, hgt⟩ := w1 hsep
              exact ⟨tid, tk, r1.1 _ _ hm, r2.2.2.2.2.1 _ _ hh, hn,
                r2.2.2.2.2.2 _ _ hmap, hgt⟩
            · intro hsep
              exact r1.1 _ _ (w2 hsep).1
          · have hr := ih (p4 hc) h s hs o ho
            constructor
            · intro hsep
              obtain ⟨tid, tk, hm, hh, hn, hmap, hgt⟩ := hr.1 hsep
              exact ⟨tid, tk, hm, hh, hn, hmap,
                p3.2.2.1 ▸ hgt⟩
            · intro hsep
              have := hr.2 hsep
              rw [p3.2.2.1] at this
              exact this

/-! Lemmas about the partition over all toplevel units. -/

theorem mem_sidsOf {tl : List BasicNts} {bn : BasicNts} {s : St}
    (hbn : bn ∈ tl) (hs : s ∈ bn.states) : s.sid ∈ sidsOf tl := by
  simp only [sidsOf, List.mem_flatten, List.mem_map]
  exact ⟨bn.states.map St.sid, ⟨bn, hbn, rfl⟩, List.mem_map_of_mem _ hs⟩

theorem mem_tidsOf {tl : List BasicNts} {bn : BasicNts} {t : Tr}
    (hbn : bn ∈ tl) (ht : t ∈ bn.transitions) : t.tid ∈ tidsOf tl := by
  simp only [tidsOf, List.mem_flatten, List.mem_map]
  exact ⟨bn.transitions.map Tr.tid, ⟨bn, hbn, rfl⟩, List.mem_map_of_mem _ ht⟩

theorem sidsOf_cons (bn : BasicNts) (tl : List BasicNts) :
    sidsOf (bn :: tl) = bn.states.map St.sid ++ sidsOf tl := by
  simp [sidsOf]

theorem tidsOf_cons (bn : BasicNts) (tl : List BasicNts) :
    tidsOf (bn :: tl) = bn.transitions.map Tr.tid ++ tidsOf tl := by
  simp [tidsOf]

theorem splitAll_ok_facts {tl : List BasicNts} {mem : Mem} {ts : TasksObj}
    {mem' : Mem} {ts' : TasksObj}
    (h : splitAll tl mem ts = .ok (mem', ts')) :
    mem.sext mem' ∧ ts.ext ts' ∧ (ts.consistent → ts'.consistent) ∧
      mem'.tdata = mem.tdata ∧
      (∀ x, x ∉ sidsOf tl →
        alookup mem'.sdata x = alookup mem.sdata x) := by
  induction tl generalizing mem ts with
  | nil =>
      simp only [splitAll, Except.ok.injEq, Prod.mk.injEq] at h
      obtain ⟨h1, h2⟩ := h
      subst h1
      subst h2
      exact ⟨Mem.sext_refl _, TasksObj.ext_refl _, id, rfl, fun _ _ => rfl⟩
  | cons bn rest ih =>
      simp only [splitAll] at h
      cases hp : splitStates (if bn.name = ts.main_nts_name then false else true)
          bn.name bn.states mem ts with
      | error e =>
          rw [hp] at h
          exact Except.noConfusion h
      | ok pr =>
          obtain ⟨m1, t1⟩ := pr
          rw [hp] at h
          obtain ⟨p1, p2, p3, p4, p5⟩ := splitStates_ok_facts hp
          obtain ⟨i1, i2, i3, i4, i5⟩ := ih h
          refine ⟨Mem.sext_trans p1 i1, TasksObj.ext_trans p2 i2,
            fun hc => i3 (p3 hc), i4.trans p4, ?_⟩
          intro x hx
          rw [sidsOf_cons, List.mem_append, not_or] at hx
          rw [i5 x hx.2, p5 x hx.1]

theorem splitAll_ok_input {tl : List BasicNts} {mem : Mem} {ts : TasksObj}
    {mem' : Mem} {ts' : TasksObj} (hnd : (sidsOf tl).Nodup)
    (h : splitAll tl mem ts = .ok (mem', ts')) :
    ∀ bn ∈ tl, ∀ s ∈ bn.states, alookup mem.sdata s.sid = none ∧
      (bn.name ≠ ts.main_nts_name → s.origin.isSome = true) := by
  induction tl generalizing mem ts with
  | nil =>
      intro bn hbn
      cases hbn
  | cons bn0 rest ih =>
      rw [sidsOf_cons] at hnd
      obtain ⟨hnd1, hnd2, hdisj⟩ := List.nodup_append.mp hnd
      simp only [splitAll] at h
      cases hp : splitStates (if bn0.name = ts.main_nts_name then false else true)
          bn0.name bn0.states mem ts with
      | error e =>
          rw [hp] at h
          exact Except.noConfusion h
      | ok pr =>
          obtain ⟨m1, t1⟩ := pr
          rw [hp] at h
          obtain ⟨p1, p2, p3, p4, p5⟩ := splitStates_ok_facts hp
          intro bn hbn s hs
          rcases List.mem_cons.mp hbn with rfl | hbn
          · obtain ⟨q1, q2⟩ := splitStates_ok_input hnd1 hp s hs
            refine ⟨q1, ?_⟩
            intro hname
            exact q2 (if_neg hname)
          · obtain ⟨q1, q2⟩ := ih hnd2 h bn hbn s hs
            constructor
            · have hmem : s.sid ∈ sidsOf rest := mem_sidsOf hbn hs
              have hnot : s.sid ∉ bn0.states.map St.sid := fun hc => hdisj hc hmem
              rw [← p5 s.sid hnot]
              exact q1
            · intro hname
              refine q2 ?_
              rw [p2.1]
              exact hname

theorem splitAll_ok_of {tl : List BasicNts} {mem : Mem} {ts : TasksObj}
    (hnd : (sidsOf tl).Nodup)
    (h1 : ∀ bn ∈ tl, ∀ s ∈ bn.states, alookup mem.sdata s.sid = none)
    (h2 : ∀ bn ∈ tl, bn.name ≠ ts.main_nts_name → ∀ s ∈ bn.states,
      s.origin.isSome = true) :
    ∃ mem' ts', splitAll tl mem ts = .ok (mem', ts') := by
  induction tl generalizing mem ts with
  | nil => exact ⟨mem, ts, rfl⟩
  | cons bn0 rest ih =>
      rw [sidsOf_cons] at hnd
      obtain ⟨hnd1, hnd2, hdisj⟩ := List.nodup_append.mp hnd
      have hsba : (if bn0.name = ts.main_nts_name then false else true) = true →
          ∀ s ∈ bn0.states, s.origin.isSome = true := by
        intro hb
        by_cases hname : bn0.name = ts.main_nts_name
        · rw [if_pos hname] at hb
          cases hb
        · exact h2 bn0 (List.mem_cons_self _ _) hname
      obtain ⟨m1, t1, hp⟩ := splitStates_ok_of hnd1
        (h1 bn0 (List.mem_cons_self _ _)) hsba
      obtain ⟨p1, p2, p3, p4, p5⟩ := splitStates_ok_facts hp
      have h1' : ∀ bn ∈ rest, ∀ s ∈ bn.states, alookup m1.sdata s.sid = none := by
        intro bn hbn s hs
        have hnot : s.sid ∉ bn0.states.map St.sid :=
          fun hc => hdisj hc (mem_sidsOf hbn hs)
        rw [p5 s.sid hnot]
        exact h1 bn (List.mem_cons_of_mem _ hbn) s hs
      have h2' : ∀ bn ∈ rest, bn.name ≠ t1.main_nts_name → ∀ s ∈ bn.states,
          s.origin.isSome = true := by
        intro bn hbn hname
        refine h2 bn (List.mem_cons_of_mem _ hbn) ?_
        rw [← p2.1]
        exact hname
      obtain ⟨mem', ts', hsp⟩ := ih hnd2 h1' h2'
      refine ⟨mem', ts', ?_⟩
      simp only [splitAll]
      rw [hp]
      exact hsp

theorem splitAll_err_missing {tl : List BasicNts} {mem : Mem} {ts : TasksObj}
    {sid : Nat} {m2 : Mem} {t2 : TasksObj}
    (h : splitAll tl mem ts = .error (.missingOrigin sid, m2, t2)) :
    alookup m2.sdata sid = some ⟨sid, none⟩ ∧ alookup mem.sdata sid = none ∧
      mem.sext m2 ∧
      ∃ bn ∈ tl, bn.name ≠ ts.main_nts_name ∧
        ∃ s2 ∈ bn.states, s2.sid = sid ∧ s2.origin = none := by
  induction tl generalizing mem ts with
  | nil => exact Except.noConfusion h
  | cons bn0 rest ih =>
      simp only [splitAll] at h
      cases hp : splitStates (if bn0.name = ts.main_nts_name then false else true)
          bn0.name bn0.states mem ts with
      | error e =>
          rw [hp] at h
          injection h with he
          subst he
          obtain ⟨q1, q2, q3, hsba, s2, hs2, hsid, ho⟩ :=
            splitStates_err_missing hp
          have hname : bn0.name ≠ ts.main_nts_name := by
            intro hc
            rw [if_pos hc] at hsba
            cases hsba
          exact ⟨q1, q2, q3, bn0, List.mem_cons_self _ _, hname,
            s2, hs2, hsid, ho⟩
      | ok pr =>
          obtain ⟨m1, t1⟩ := pr
          rw [hp] at h
          obtain ⟨p1, p2, p3, p4, p5⟩ := splitStates_ok_facts hp
          obtain ⟨i1, i2, i3, bn, hbn, hname, s2, hs2, hsid, ho⟩ := ih h
          refine ⟨i1, Mem.sext_none p1 i2, Mem.sext_trans p1 i3,
            bn, List.mem_cons_of_mem _ hbn, ?_, s2, hs2, hsid, ho⟩
          rw [← p2.1]
          exact hname

theorem splitAll_err_missing_scan {tl : List BasicNts} {mem : Mem}
    {ts : TasksObj} {sid : Nat} {m2 : Mem} {t2 : TasksObj}
    (h : splitAll tl mem ts = .error (.missingOrigin sid, m2, t2)) :
    ∃ preBns bn postBns pre s0 post,
      tl = preBns ++ bn :: postBns ∧
      bn.states = pre ++ s0 :: post ∧
      s0.sid = sid ∧ s0.origin = none ∧ bn.name ≠ ts.main_nts_name ∧
      (∀ bn2 ∈ preBns, ∀ s2 ∈ bn2.states, ∃ tid,
        alookup m2.sdata s2.sid = some ⟨s2.sid, some tid⟩) ∧
      (∀ s2 ∈ pre, ∃ tid,
        alookup m2.sdata s2.sid = some ⟨s2.sid, some tid⟩) := by
  induction tl generalizing mem ts with
  | nil => exact Except.noConfusion h
  | cons bn0 rest ih =>
      simp only [splitAll] at h
      cases hp : splitStates (if bn0.name = ts.main_nts_name then false else true)
          bn0.name bn0.states mem ts with
      | error e =>
          rw [hp] at h
          injection h with he
          subst he
          obtain ⟨pre, s0, post, hdec, hsid, ho, hrec⟩ :=
            splitStates_err_missing_scan hp
          have hsba := (splitStates_err_missing hp).2.2.2.1
          have hname : bn0.name ≠ ts.main_nts_name := by
            intro hc
            rw [if_pos hc] at hsba
            cases hsba
          exact ⟨[], bn0, rest, pre, s0, post, rfl, hdec, hsid, ho, hname,
            fun bn2 hbn2 => absurd hbn2 (List.not_mem_nil bn2), hrec⟩
      | ok pr =>
          obtain ⟨m1, t1⟩ := pr
          rw [hp] at h
          obtain ⟨p1, p2, p3, p4, p5⟩ := splitStates_ok_facts hp
          obtain ⟨preBns, bn, postBns, pre, s0, post, hdec, hdec2, hsid,
            ho, hname, hrecB, hrec⟩ := ih h
          have hsx : m1.sext m2 := (splitAll_err_missing h).2.2.1
          refine ⟨bn0 :: preBns, bn, postBns, pre, s0, post,
            by rw [hdec]; exact (List.cons_append _ _ _).symm,
            hdec2, hsid, ho, ?_, ?_, hrec⟩
          · rw [← p2.1]
            exact hname
          · intro bn2 hbn2 s2 hs2
            rcases List.mem_cons.mp hbn2 with rfl | hbn2
            · obtain ⟨tid, htid⟩ := splitStates_ok_owner_all hp s2 hs2
              exact ⟨tid, hsx.1 _ _ htid⟩
            · exact hrecB bn2 hbn2 s2 hs2

theorem splitAll_err_double {tl : List BasicNts} {mem : Mem} {ts : TasksObj}
    {sid : Nat} {m2 : Mem} {t2 : TasksObj} (hnd : (sidsOf tl).Nodup)
    (h : splitAll tl mem ts = .error (.doubleInitState sid, m2, t2)) :
    (alookup mem.sdata sid).isSome = true ∧
      ∃ bn ∈ tl, ∃ s2 ∈ bn.states, s2.sid = sid := by
  induction tl generalizing mem ts with
  | nil => exact Except.noConfusion h
  | cons bn0 rest ih =>
      rw [sidsOf_cons] at hnd
      obtain ⟨hnd1, hnd2, hdisj⟩ := List.nodup_append.mp hnd
      simp only [splitAll] at h
      cases hp : splitStates (if bn0.name = ts.main_nts_name then false else true)
          bn0.name bn0.states mem ts with
      | error e =>
          rw [hp] at h
          injection h with he
          subst he
          obtain ⟨q1, s2, hs2, hsid⟩ := splitStates_err_double hnd1 hp
          exact ⟨q1, bn0, List.mem_cons_self _ _, s2, hs2, hsid⟩
      | ok pr =>
          obtain ⟨m1, t1⟩ := pr
          rw [hp] at h
          obtain ⟨p1, p2, p3, p4, p5⟩ := splitStates_ok_facts hp
          obtain ⟨i1, bn, hbn, s2, hs2, hsid⟩ := ih hnd2 h
          have hnot : sid ∉ bn0.states.map St.sid := by
            intro hc
            exact hdisj hc (hsid ▸ mem_sidsOf hbn hs2)
          exact ⟨(p5 sid hnot) ▸ i1, bn, List.mem_cons_of_mem _ hbn, s2,
            hs2, hsid⟩

theorem splitAll_owner {tl : List BasicNts} {mem : Mem} {ts : TasksObj}
    {mem' : Mem} {ts' : TasksObj} (hc : ts.consistent)
    (h : splitAll tl mem ts = .ok (mem', ts')) :
    ∀ bn ∈ tl, bn.name ≠ ts.main_nts_name → ∀ s ∈ bn.states,
      ∀ o, s.origin = some o → ':' ∈ o →
      ∃ tid tk,
        alookup ts'.name_to_task (o.takeWhile (fun c => c != ':')) = some tid ∧
        nthTask ts'.task_heap tid = some tk ∧
        tk.name = o.takeWhile (fun c => c != ':') ∧
        ts.idle_worker_task < tid := by
  induction tl generalizing mem ts with
  | nil =>
      intro bn hbn
      cases hbn
  | cons bn0 rest ih =>
      simp only [splitAll] at h
      cases hp : splitStates (if bn0.name = ts.main_nts_name then false else true)
          bn0.name bn0.states mem ts with
      | error e =>
          rw [hp] at h
          exact Except.noConfusion h
      | ok pr =>
          obtain ⟨m1, t1⟩ := pr
          rw [hp] at h
          obtain ⟨p1, p2, p3, p4, p5⟩ := splitStates_ok_facts hp
          obtain ⟨r1, r2, r3, r4, r5⟩ := splitAll_ok_facts h
          intro bn hbn hname s hs o ho hsep
          rcases List.mem_cons.mp hbn with rfl | hbn
          · rw [if_neg hname] at hp
            obtain ⟨tid, tk, _, hh, hn, hmap, hgt⟩ :=
              (splitStates_owner hc hp s hs o ho).1 hsep
            exact ⟨tid, tk, r2.2.2.2.2.2 _ _ hmap, r2.2.2.2.2.1 _ _ hh,
              hn, hgt⟩
          · have hname1 : bn.name ≠ t1.main_nts_name := by
              rw [p2.1]
              exact hname
            obtain ⟨tid, tk, hmap, hh, hn, hgt⟩ :=
              ih (p3 hc) h bn hbn hname1 s hs o ho hsep
            exact ⟨tid, tk, hmap, hh, hn, p2.2.2.1 ▸ hgt⟩

/-! Lemmas about the transition-record phase. -/

theorem setTrans_sext {mem : Mem} {tid : Nat} (ti : TransitionInfo)
    (h : alookup mem.tdata tid = none) : mem.sext (mem.setTrans tid ti) := by
  constructor
  · intro x v hv
    exact hv
  · intro x v hv
    have hx : x ≠ tid := by
      intro he
      rw [he, h] at hv
      cases hv
    rw [setTrans_lookup_ne _ _ _ hx]
    exact hv

theorem transList_ok_facts {ts : TasksObj} {trs : List Tr} {mem mem' : Mem}
    (h : transList ts trs mem = .ok mem') :
    mem.sext mem' ∧ mem'.sdata = mem.sdata ∧
      (∀ x, x ∉ trs.map Tr.tid →
        alookup mem'.tdata x = alookup mem.tdata x) := by
  induction trs generalizing mem with
  | nil =>
      injection h with he
      subst he
      exact ⟨Mem.sext_refl _, rfl, fun _ _ => rfl⟩
  | cons t rest ih =>
      simp only [transList] at h
      by_cases hg : (alookup mem.tdata t.tid).isSome = true
      · rw [if_pos hg] at h
        exact Except.noConfusion h
      · rw [if_neg hg] at h
        rw [Option.not_isSome_iff_eq_none] at hg
        obtain ⟨i1, i2, i3⟩ := ih h
        refine ⟨Mem.sext_trans (setTrans_sext _ hg) i1,
          i2.trans (setTrans_sdata _ _ _), ?_⟩
        intro x hx
        simp only [List.map_cons, List.mem_cons, not_or] at hx
        rw [i3 x hx.2, setTrans_lookup_ne _ _ _ hx.1]

theorem transList_ok_input {ts : TasksObj} {trs : List Tr} {mem mem' : Mem}
    (hnd : (trs.map Tr.tid).Nodup)
    (h : transList ts trs mem = .ok mem') :
    ∀ t2 ∈ trs, alookup mem.tdata t2.tid = none := by
  induction trs generalizing mem with
  | nil =>
      intro t2 ht
      cases ht
  | cons t rest ih =>
      simp only [transList] at h
      by_cases hg : (alookup mem.tdata t.tid).isSome = true
      · rw [if_pos hg] at h
        exact Except.noConfusion h
      · rw [if_neg hg] at h
        rw [Option.not_isSome_iff_eq_none] at hg
        simp only [List.map_cons, List.nodup_cons] at hnd
        intro t2 ht2
        rcases List.mem_cons.mp ht2 with rfl | ht2
        · exact hg
        · have hne : t2.tid ≠ t.tid := by
            intro he
            exact hnd.1 (he ▸ List.mem_map_of_mem Tr.tid ht2)
          have := ih hnd.2 h t2 ht2
          rw [setTrans_lookup_ne _ _ _ hne] at this
          exact this

theorem transList_ok_of {ts : TasksObj} {trs : List Tr} {mem : Mem}
    (hnd : (trs.map Tr.tid).Nodup)
    (h1 : ∀ t2 ∈ trs, alookup mem.tdata t2.tid = none) :
    ∃ mem', transList ts trs mem = .ok mem' := by
  induction trs generalizing mem with
  | nil => exact ⟨mem, rfl⟩
  | cons t rest ih =>
      simp only [List.map_cons, List.nodup_cons] at hnd
      have hg : alookup mem.tdata t.tid = none :=
        h1 t (List.mem_cons_self _ _)
      have h1' : ∀ t2 ∈ rest,
          alookup (mem.setTrans t.tid ⟨t.tid, t.effect⟩).tdata t2.tid = none := by
        intro t2 ht2
        have hne : t2.tid ≠ t.tid := by
          intro he
          exact hnd.1 (he ▸ List.mem_map_of_mem Tr.tid ht2)
        rw [setTrans_lookup_ne _ _ _ hne]
        exact h1 t2 (List.mem_cons_of_mem _ ht2)
      obtain ⟨mem', hm⟩ := ih hnd.2 h1'
      refine ⟨mem', ?_⟩
      simp only [transList]
      rw [if_neg (by rw [hg]; simp)]
      exact hm

theorem transList_err_kind {ts : TasksObj} {trs : List Tr} {mem : Mem}
    {e : PassError} {m2 : Mem} {t2 : TasksObj}
    (h : transList ts trs mem = .error (e, m2, t2)) :
    ∃ tid, e = .doubleInitTransition tid := by
  induction trs generalizing mem with
  | nil => exact Except.noConfusion h
  | cons t rest ih =>
      simp only [transList] at h
      by_cases hg : (alookup mem.tdata t.tid).isSome = true
      · rw [if_pos hg] at h
        injection h with he
        exact ⟨t.tid, (congrArg Prod.fst he).symm⟩
      · rw [if_neg hg] at h
        exact ih h

theorem transList_err_double {ts : TasksObj} {trs : List Tr} {mem : Mem}
    {tid : Nat} {m2 : Mem} {t2 : TasksObj} (hnd : (trs.map Tr.tid).Nodup)
    (h : transList ts trs mem = .error (.doubleInitTransition tid, m2, t2)) :
    (alookup mem.tdata tid).isSome = true ∧ ∃ tr ∈ trs, tr.tid = tid := by
  induction trs generalizing mem with
  | nil => exact Except.noConfusion h
  | cons t rest ih =>
      simp only [List.map_cons, List.nodup_cons] at hnd
      simp only [transList] at h
      by_cases hg : (alookup mem.tdata t.tid).isSome = true
      · rw [if_pos hg] at h
        injection h with he
        simp only [Prod.mk.injEq] at he
        injection he.1 with htid
        subst htid
        exact ⟨hg, t, List.mem_cons_self _ _, rfl⟩
      · rw [if_neg hg] at h
        obtain ⟨i1, tr, htr, htid⟩ := ih hnd.2 h
        have hne : tid ≠ t.tid := by
          intro he
          exact hnd.1 (he ▸ htid ▸ List.mem_map_of_mem Tr.tid htr)
        rw [setTrans_lookup_ne _ _ _ hne] at i1
        exact ⟨i1, tr, List.mem_cons_of_mem _ htr, htid⟩

theorem transAll_ok_facts {ts : TasksObj} {tl : List BasicNts} {mem mem' : Mem}
    (h : transAll ts tl mem = .ok mem') :
    mem.sext mem' ∧ mem'.sdata = mem.sdata ∧
      (∀ x, x ∉ tidsOf tl →
        alookup mem'.tdata x = alookup mem.tdata x) := by
  induction tl generalizing mem with
  | nil =>
      injection h with he
      subst he
      exact ⟨Mem.sext_refl _, rfl, fun _ _ => rfl⟩
  | cons bn rest ih =>
      simp only [transAll] at h
      cases hp : transList ts bn.transitions mem with
      | error e =>
          rw [hp] at h
          exact Except.noConfusion h
      | ok m1 =>
          rw [hp] at h
          obtain ⟨p1, p2, p3⟩ := transList_ok_facts hp
          obtain ⟨i1, i2, i3⟩ := ih h
          refine ⟨Mem.sext_trans p1 i1, i2.trans p2, ?_⟩
          intro x hx
          rw [tidsOf_cons, List.mem_append, not_or] at hx
          rw [i3 x hx.2, p3 x hx.1]

theorem transAll_ok_input {ts : TasksObj} {tl : List BasicNts} {mem mem' : Mem}
    (hnd : (tidsOf tl).Nodup) (h : transAll ts tl mem = .ok mem') :
    ∀ bn ∈ tl, ∀ t2 ∈ bn.transitions, alookup mem.tdata t2.tid = none := by
  induction tl generalizing mem with
  | nil =>
      intro bn hbn
      cases hbn
  | cons bn0 rest ih =>
      rw [tidsOf_cons] at hnd
      obtain ⟨hnd1, hnd2, hdisj⟩ := List.nodup_append.mp hnd
      simp only [transAll] at h
      cases hp : transList ts bn0.transitions mem with
      | error e =>
          rw [hp] at h
          exact Except.noConfusion h
      | ok m1 =>
          rw [hp] at h
          obtain ⟨p1, p2, p3⟩ := transList_ok_facts hp
          intro bn hbn t2 ht2
          rcases List.mem_cons.mp hbn with rfl | hbn
          · exact transList_ok_input hnd1 hp t2 ht2
          · have hnot : t2.tid ∉ bn0.transitions.map Tr.tid :=
              fun hc => hdisj hc (mem_tidsOf hbn ht2)
            rw [← p3 t2.tid hnot]
            exact ih hnd2 h bn hbn t2 ht2

theorem transAll_ok_of {ts : TasksObj} {tl : List BasicNts} {mem : Mem}
    (hnd : (tidsOf tl).Nodup)
    (h1 : ∀ bn ∈ tl, ∀ t2 ∈ bn.transitions, alookup mem.tdata t2.tid = none) :
    ∃ mem', transAll ts tl mem = .ok mem' := by
  induction tl generalizing mem with
  | nil => exact ⟨mem, rfl⟩
  | cons bn0 rest ih =>
      rw [tidsOf_cons] at hnd
      obtain ⟨hnd1, hnd2, hdisj⟩ := List.nodup_append.mp hnd
      obtain ⟨m1, hp⟩ := transList_ok_of hnd1 (h1 bn0 (List.mem_cons_self _ _))
      obtain ⟨p1, p2, p3⟩ := transList_ok_facts hp
      have h1' : ∀ bn ∈ rest, ∀ t2 ∈ bn.transitions,
          alookup m1.tdata t2.tid = none := by
        intro bn hbn t2 ht2
        have hnot : t2.tid ∉ bn0.transitions.map Tr.tid :=
          fun hc => hdisj hc (mem_tidsOf hbn ht2)
        rw [p3 t2.tid hnot]
        exact h1 bn (List.mem_cons_of_mem _ hbn) t2 ht2
      obtain ⟨mem', hm⟩ := ih hnd2 h1'
      refine ⟨mem', ?_⟩
      simp only [transAll]
      rw [hp]
      exact hm

theorem transAll_err_kind {ts : TasksObj} {tl : List BasicNts} {mem : Mem}
    {e : PassError} {m2 : Mem} {t2 : TasksObj}
    (h : transAll ts tl mem = .error (e, m2, t2)) :
    ∃ tid, e = .doubleInitTransition tid := by
  induction tl generalizing mem with
  | nil => exact Except.noConfusion h
  | cons bn rest ih =>
      simp only [transAll] at h
      cases hp : transList ts bn.transitions mem with
      | error e2 =>
          rw [hp] at h
          injection h with he
          subst he
          exact transList_err_kind hp
      | ok m1 =>
          rw [hp] at h
          exact ih h

theorem transAll_err_double {ts : TasksObj} {tl : List BasicNts} {mem : Mem}
    {tid : Nat} {m2 : Mem} {t2 : TasksObj} (hnd : (tidsOf tl).Nodup)
    (h : transAll ts tl mem = .error (.doubleInitTransition tid, m2, t2)) :
    (alookup mem.tdata tid).isSome = true ∧
      ∃ bn ∈ tl, ∃ tr ∈ bn.transitions, tr.tid = tid := by
  induction tl generalizing mem with
  | nil => exact Except.noConfusion h
  | cons bn0 rest ih =>
      rw [tidsOf_cons] at hnd
      obtain ⟨hnd1, hnd2, hdisj⟩ := List.nodup_append.mp hnd
      simp only [transAll] at h
      cases hp : transList ts bn0.transitions mem with
      | error e2 =>
          rw [hp] at h
          injection h with he
          subst he
          obtain ⟨q1, tr, htr, htid⟩ := transList_err_double hnd1 hp
          exact ⟨q1, bn0, List.mem_cons_self _ _, tr, htr, htid⟩
      | ok m1 =>
          rw [hp] at h
          obtain ⟨p1, p2, p3⟩ := transList_ok_facts hp
          obtain ⟨i1, bn, hbn, tr, htr, htid⟩ := ih hnd2 h
          have hnot : tid ∉ bn0.transitions.map Tr.tid :=
            fun hc => hdisj hc (htid ▸ mem_tidsOf hbn htr)
          exact ⟨(p3 tid hnot) ▸ i1, bn, List.mem_cons_of_mem _ hbn,
            tr, htr, htid⟩

theorem splitStates_err_kind {sba : Bool} {bnName : List Char}
    {states : List St} {mem : Mem} {ts : TasksObj} {e : PassError} {m2 : Mem}
    {t2 : TasksObj}
    (h : splitStates sba bnName states mem ts = .error (e, m2, t2)) :
    (∃ sid, e = .doubleInitState sid) ∨ (∃ sid, e = .missingOrigin sid) := by
  induction states generalizing mem ts with
  | nil => exact Except.noConfusion h
  | cons s rest ih =>
      simp only [splitStates] at h
      cases hp : processState sba bnName s mem ts with
      | error e2 =>
          rw [hp] at h
          injection h with he
          subst he
          rcases processState_err hp with ⟨he, _⟩ | ⟨he, _⟩
          · exact Or.inl ⟨s.sid, he⟩
          · exact Or.inr ⟨s.sid, he⟩
      | ok pr =>
          obtain ⟨m1, t1⟩ := pr
          rw [hp] at h
          exact ih h

theorem splitAll_err_kind {tl : List BasicNts} {mem : Mem} {ts : TasksObj}
    {e : PassError} {m2 : Mem} {t2 : TasksObj}
    (h : splitAll tl mem ts = .error (e, m2, t2)) :
    (∃ sid, e = .doubleInitState sid) ∨ (∃ sid, e = .missingOrigin sid) := by
  induction tl generalizing mem ts with
  | nil => exact Except.noConfusion h
  | cons bn rest ih =>
      simp only [splitAll] at h
      cases hp : splitStates (if bn.name = ts.main_nts_name then false else true)
          bn.name bn.states mem ts with
      | error e2 =>
          rw [hp] at h
          injection h with he
          subst he
          exact splitStates_err_kind hp
      | ok pr =>
          obtain ⟨m1, t1⟩ := pr
          rw [hp] at h
          exact ih h

theorem init_consistent (main : List Char) (tl : List BasicNts) :
    (Tasks.init main tl).consistent := by
  constructor
  · simp [Tasks.init]
  · intro p hp
    simp [Tasks.init, alookup] at hp

/-! Decomposition of the entry point. -/

theorem compute_tasks_ok_elim {n : Nts} {main : List Char} {mem m : Mem}
    {ts : TasksObj} (h : compute_tasks n main mem = .ok (m, ts)) :
    ∃ m1, splitAll n.toplevel mem (Tasks.init main n.toplevel) = .ok (m1, ts) ∧
      transAll ts ts.toplevel m1 = .ok m := by
  simp only [compute_tasks] at h
  cases hp : splitAll n.toplevel mem (Tasks.init main n.toplevel) with
  | error e =>
      simp only [hp] at h
      exact Except.noConfusion h
  | ok pr =>
      obtain ⟨m1, t1⟩ := pr
      simp only [hp] at h
      cases htr : transAll t1 t1.toplevel m1 with
      | error e =>
          simp only [htr] at h
          exact Except.noConfusion h
      | ok m2 =>
          simp only [htr] at h
          injection h with he
          simp only [Prod.mk.injEq] at he
          obtain ⟨he1, he2⟩ := he
          subst he1
          subst he2
          exact ⟨m1, rfl, htr⟩

theorem compute_tasks_err_elim {n : Nts} {main : List Char} {mem : Mem}
    {E : PassError} {m : Mem} {t : TasksObj}
    (h : compute_tasks n main mem = .error (E, m, t)) :
    splitAll n.toplevel mem (Tasks.init main n.toplevel) =
        .error (E, m, t) ∨
      ∃ m1 ts1,
        splitAll n.toplevel mem (Tasks.init main n.toplevel) = .ok (m1, ts1) ∧
          transAll ts1 ts1.toplevel m1 = .error (E, m, t) := by
  simp only [compute_tasks] at h
  cases hp : splitAll n.toplevel mem (Tasks.init main n.toplevel) with
  | error e =>
      simp only [hp] at h
      injection h with he
      subst he
      exact Or.inl rfl
  | ok pr =>
      obtain ⟨m1, t1⟩ := pr
      simp only [hp] at h
      cases htr : transAll t1 t1.toplevel m1 with
      | error e =>
          simp only [htr] at h
          injection h with he
          subst he
          exact Or.inr ⟨m1, t1, rfl, htr⟩
      | ok m2 =>
          simp only [htr] at h
          exact Except.noConfusion h

/-- C5: in by-origin-annotation mode, a successfully partitioned state whose
origin contains the separator is owned by the task named by the prefix
before the first separator, and a state whose origin has no separator is
owned by the sentinel task. -/
theorem claim_C5 {bnName : List Char} {states : List St} {mem : Mem}
    {ts : TasksObj} {mem' : Mem} {ts' : TasksObj} (hc : ts.consistent)
    (h : splitStates true bnName states mem ts = .ok (mem', ts'))
    {s : St} (hs : s ∈ states) {o : List Char} (ho : s.origin = some o) :
    (':' ∈ o →
      ∃ tid tk, alookup mem'.sdata s.sid = some ⟨s.sid, some tid⟩ ∧
        nthTask ts'.task_heap tid = some tk ∧
        tk.name = o.takeWhile (fun c => c != ':')) ∧
      (':' ∉ o →
        alookup mem'.sdata s.sid =
          some ⟨s.sid, some ts'.idle_worker_task⟩) := by
  have hw := splitStates_owner hc h s hs o ho
  have hidle : ts'.idle_worker_task = ts.idle_worker_task :=
    (splitStates_ok_facts h).2.1.2.2.1
  constructor
  · intro hsep
    obtain ⟨tid, tk, hm, hh, hn, _, _⟩ := hw.1 hsep
    exact ⟨tid, tk, hm, hh, hn⟩
  · intro hsep
    rw [hidle]
    exact hw.2 hsep

/-- Closed instance of C5's statement on the worker unit, obtained by
applying the theorem to the state with origin worker:3:label and to the
state with origin s_running_1. -/
theorem claim_C5_witness :
    ((':' ∈ ("worker:3:label".toList) →
      ∃ tid tk, alookup splitWorkerPair.1.sdata 7 = some ⟨7, some tid⟩ ∧
        nthTask splitWorkerPair.2.task_heap tid = some tk ∧
        tk.name = ("worker:3:label".toList).takeWhile (fun c => c != ':')) ∧
      (':' ∉ ("worker:3:label".toList) →
        alookup splitWorkerPair.1.sdata 7 =
          some ⟨7, some splitWorkerPair.2.idle_worker_task⟩)) ∧
    ((':' ∈ ("s_running_1".toList) →
      ∃ tid tk, alookup splitWorkerPair.1.sdata 8 = some ⟨8, some tid⟩ ∧
        nthTask splitWorkerPair.2.task_heap tid = some tk ∧
        tk.name = ("s_running_1".toList).takeWhile (fun c => c != ':')) ∧
      (':' ∉ ("s_running_1".toList) →
        alookup splitWorkerPair.1.sdata 8 =
          some ⟨8, some splitWorkerPair.2.idle_worker_task⟩)) :=
  ⟨claim_C5 (init_consistent ("main".toList) [exWorkerBn])
      (by decide :
        splitStates true ("thr".toList) exWorkerBn.states Mem.empty
            (Tasks.init ("main".toList) [exWorkerBn]) =
          .ok (splitWorkerPair.1, splitWorkerPair.2))
      (by decide :
        (⟨7, some ("worker:3:label".toList)⟩ : St) ∈ exWorkerBn.states)
      (by decide :
        (St.mk 7 (some ("worker:3:label".toList))).origin =
          some ("worker:3:label".toList)),
    claim_C5 (init_consistent ("main".toList) [exWorkerBn])
      (by decide :
        splitStates true ("thr".toList) exWorkerBn.states Mem.empty
            (Tasks.init ("main".toList) [exWorkerBn]) =
          .ok (splitWorkerPair.1, splitWorkerPair.2))
      (by decide :
        (⟨8, some ("s_running_1".toList)⟩ : St) ∈ exWorkerBn.states)
      (by decide :
        (St.mk 8 (some ("s_running_1".toList))).origin =
          some ("s_running_1".toList))⟩

/-- C7: with distinct state and transition identities, the pass succeeds
iff the input is well formed (no pre-existing records, origins present on
non-main units); a double-initialization state error identifies a state
that already carried a record, a missing-metadata error identifies a state
of a by-origin unit without origin annotation, and a
double-initialization transition error identifies a transition that
already carried a record. -/
theorem claim_C7 (n : Nts) (main : List Char) (mem : Mem)
    (hs : (sidsOf n.toplevel).Nodup) (ht : (tidsOf n.toplevel).Nodup) :
    ((∃ r, compute_tasks n main mem = .ok r) ↔
        wfInput n.toplevel main mem) ∧
      (∀ sid m t2, compute_tasks n main mem =
          .error (.doubleInitState sid, m, t2) →
        (alookup mem.sdata sid).isSome = true ∧
          ∃ bn ∈ n.toplevel, ∃ s2 ∈ bn.states, s2.sid = sid) ∧
      (∀ sid m t2, compute_tasks n main mem =
          .error (.missingOrigin sid, m, t2) →
        ∃ bn ∈ n.toplevel, bn.name ≠ main ∧
          ∃ s2 ∈ bn.states, s2.sid = sid ∧ s2.origin = none) ∧
      (∀ tid m t2, compute_tasks n main mem =
          .error (.doubleInitTransition tid, m, t2) →
        (alookup mem.tdata tid).isSome = true ∧
          ∃ bn ∈ n.toplevel, ∃ tr ∈ bn.transitions, tr.tid = tid) := by
  refine ⟨⟨?_, ?_⟩, ?_, ?_, ?_⟩
  · rintro ⟨r, hok⟩
    obtain ⟨m, ts⟩ := r
    obtain ⟨m1, hp, htr⟩ := compute_tasks_ok_elim hok
    have hfacts := splitAll_ok_facts hp
    have htl : ts.toplevel = n.toplevel := hfacts.2.1.2.1
    have htd : m1.tdata = mem.tdata := hfacts.2.2.2.1
    rw [htl] at htr
    have hti := transAll_ok_input ht htr
    rw [htd] at hti
    refine ⟨?_, ?_, ?_⟩
    · intro bn hbn s hs2
      exact (splitAll_ok_input hs hp bn hbn s hs2).1
    · intro bn hbn hname s hs2
      exact (splitAll_ok_input hs hp bn hbn s hs2).2 hname
    · exact hti
  · rintro ⟨w1, w2, w3⟩
    have w2a : ∀ bn ∈ n.toplevel,
        bn.name ≠ (Tasks.init main n.toplevel).main_nts_name →
        ∀ s ∈ bn.states, s.origin.isSome = true := w2
    obtain ⟨m1, t1, hp⟩ := splitAll_ok_of hs w1 w2a
    have hfacts := splitAll_ok_facts hp
    have htl : t1.toplevel = n.toplevel := hfacts.2.1.2.1
    have htd : m1.tdata = mem.tdata := hfacts.2.2.2.1
    have h1 : ∀ bn ∈ t1.toplevel, ∀ t2 ∈ bn.transitions,
        alookup m1.tdata t2.tid = none := by
      intro bn hbn t2 ht2
      rw [htd]
      rw [htl] at hbn
      exact w3 bn hbn t2 ht2
    obtain ⟨m2, htr2⟩ : ∃ mem', transAll t1 t1.toplevel m1 = .ok mem' :=
      transAll_ok_of (by rw [htl]; exact ht) h1
    refine ⟨(m2, t1), ?_⟩
    simp only [compute_tasks, hp, htr2]
  · intro sid m t2c hE
    rcases compute_tasks_err_elim hE with hp | ⟨m1, ts1, hp, htr⟩
    · exact splitAll_err_double hs hp
    · obtain ⟨tid, he⟩ := transAll_err_kind htr
      exact PassError.noConfusion he
  · intro sid m t2c hE
    rcases compute_tasks_err_elim hE with hp | ⟨m1, ts1, hp, htr⟩
    · obtain ⟨_, _, _, bn, hbn, hname, s2, hs2, hsid, ho⟩ :=
        splitAll_err_missing hp
      exact ⟨bn, hbn, hname, s2, hs2, hsid, ho⟩
    · obtain ⟨tid, he⟩ := transAll_err_kind htr
      exact PassError.noConfusion he
  · intro tid m t2c hE
    rcases compute_tasks_err_elim hE with hp | ⟨m1, ts1, hp, htr⟩
    · rcases splitAll_err_kind hp with ⟨sid, he⟩ | ⟨sid, he⟩
      · exact PassError.noConfusion he
      · exact PassError.noConfusion he
    · have hfacts := splitAll_ok_facts hp
      have htl : ts1.toplevel = n.toplevel := hfacts.2.1.2.1
      have htd : m1.tdata = mem.tdata := hfacts.2.2.2.1
      rw [htl] at htr
      have hres := transAll_err_double ht htr
      rw [htd] at hres
      exact hres

/-- Closed instance of C7's statement on the worker program, obtained by
applying the theorem. -/
theorem claim_C7_witness :
    ((∃ r, compute_tasks exNtsWorker ("main".toList) Mem.empty = .ok r) ↔
        wfInput exNtsWorker.toplevel ("main".toList) Mem.empty) ∧
      (∀ sid m t2, compute_tasks exNtsWorker ("main".toList) Mem.empty =
          .error (.doubleInitState sid, m, t2) →
        (alookup Mem.empty.sdata sid).isSome = true ∧
          ∃ bn ∈ exNtsWorker.toplevel, ∃ s2 ∈ bn.states, s2.sid = sid) ∧
      (∀ sid m t2, compute_tasks exNtsWorker ("main".toList) Mem.empty =
          .error (.missingOrigin sid, m, t2) →
        ∃ bn ∈ exNtsWorker.toplevel, bn.name ≠ ("main".toList) ∧
          ∃ s2 ∈ bn.states, s2.sid = sid ∧ s2.origin = none) ∧
      (∀ tid m t2, compute_tasks exNtsWorker ("main".toList) Mem.empty =
          .error (.doubleInitTransition tid, m, t2) →
        (alookup Mem.empty.tdata tid).isSome = true ∧
          ∃ bn ∈ exNtsWorker.toplevel, ∃ tr ∈ bn.transitions, tr.tid = tid) :=
  claim_C7 exNtsWorker ("main".toList) Mem.empty (by decide) (by decide)

/-- C8: after a successful run of the pass, no lookup in the name-to-task
table ever returns the sentinel task. -/
theorem claim_C8 {n : Nts} {main : List Char} {mem m : Mem} {ts : TasksObj}
    (hok : compute_tasks n main mem = .ok (m, ts)) :
    ∀ nm tid, alookup ts.name_to_task nm = some tid →
      tid ≠ ts.idle_worker_task := by
  obtain ⟨m1, hp, htr⟩ := compute_tasks_ok_elim hok
  have hc : ts.consistent :=
    (splitAll_ok_facts hp).2.2.1 (init_consistent main n.toplevel)
  intro nm tid hl
  exact Ne.symm (Nat.ne_of_lt (hc.2 (nm, tid) (alookup_mem hl)).1)

/-- Closed instance of C8's statement on the worker program, obtained by
applying the theorem: the task registered under the name worker is not the
sentinel. -/
theorem claim_C8_witness : 1 ≠ runWorkerPair.2.idle_worker_task :=
  claim_C8
    (by decide :
      compute_tasks exNtsWorker ("main".toList) Mem.empty =
        .ok (runWorkerPair.1, runWorkerPair.2))
    ("worker".toList) 1 (by decide)

/-- C9: when the pass fails with the missing-origin error, the triggering
state already carries a StateInfo record with a null owning task, the input
carried no record for it (so the representation was mutated), every record
present on entry is still attached, and every state processed earlier in
the scan (all states of earlier toplevel units and the states before the
trigger inside its unit) still has the record the scan attached to it, with
its owning task assigned; the trigger is a state of a non-main unit with no
origin annotation. -/
theorem claim_C9 {n : Nts} {main : List Char} {mem m : Mem} {ts : TasksObj}
    {sid : Nat}
    (h : compute_tasks n main mem = .error (.missingOrigin sid, m, ts)) :
    alookup m.sdata sid = some ⟨sid, none⟩ ∧
      alookup mem.sdata sid = none ∧
      (∀ x v, alookup mem.sdata x = some v → alookup m.sdata x = some v) ∧
      (∃ bn ∈ n.toplevel, bn.name ≠ main ∧
        ∃ s2 ∈ bn.states, s2.sid = sid ∧ s2.origin = none) ∧
      ∃ preBns bn postBns pre s0 post,
        n.toplevel = preBns ++ bn :: postBns ∧
        bn.states = pre ++ s0 :: post ∧
        s0.sid = sid ∧ s0.origin = none ∧ bn.name ≠ main ∧
        (∀ bn2 ∈ preBns, ∀ s2 ∈ bn2.states, ∃ tid,
          alookup m.sdata s2.sid = some ⟨s2.sid, some tid⟩) ∧
        (∀ s2 ∈ pre, ∃ tid,
          alookup m.sdata s2.sid = some ⟨s2.sid, some tid⟩) := by
  rcases compute_tasks_err_elim h with hp | ⟨m1, ts1, hp, htr⟩
  · obtain ⟨q1, q2, q3, bn, hbn, hname, s2, hs2, hsid, ho⟩ :=
      splitAll_err_missing hp
    obtain ⟨preBns, bnx, postBns, pre, s0, post, hdec, hdec2, hsid2, ho2,
      hname2, hrecB, hrec⟩ := splitAll_err_missing_scan hp
    exact ⟨q1, q2, q3.1, ⟨bn, hbn, hname, s2, hs2, hsid, ho⟩,
      preBns, bnx, postBns, pre, s0, post, hdec, hdec2, hsid2, ho2,
      hname2, hrecB, hrec⟩
  · obtain ⟨tid, he⟩ := transAll_err_kind htr
    exact PassError.noConfusion he

/-- Closed instance of C9's statement on the mixed missing-origin program,
obtained by applying the theorem: before the trigger the scan attached
records to state 11 of the first unit and state 12 of the failing unit, and
both records, with their owners, are still in the error-time side table. -/
theorem claim_C9_witness :
    alookup runMixedErr.2.1.sdata 13 = some ⟨13, none⟩ ∧
      alookup Mem.empty.sdata 13 = none ∧
      (∀ x v, alookup Mem.empty.sdata x = some v →
        alookup runMixedErr.2.1.sdata x = some v) ∧
      (∃ bn ∈ exNtsMixed.toplevel, bn.name ≠ ("main".toList) ∧
        ∃ s2 ∈ bn.states, s2.sid = 13 ∧ s2.origin = none) ∧
      ∃ preBns bn postBns pre s0 post,
        exNtsMixed.toplevel = preBns ++ bn :: postBns ∧
        bn.states = pre ++ s0 :: post ∧
        s0.sid = 13 ∧ s0.origin = none ∧ bn.name ≠ ("main".toList) ∧
        (∀ bn2 ∈ preBns, ∀ s2 ∈ bn2.states, ∃ tid,
          alookup runMixedErr.2.1.sdata s2.sid =
            some ⟨s2.sid, some tid⟩) ∧
        (∀ s2 ∈ pre, ∃ tid,
          alookup runMixedErr.2.1.sdata s2.sid =
            some ⟨s2.sid, some tid⟩) :=
  claim_C9
    (by decide :
      compute_tasks exNtsMixed ("main".toList) Mem.empty =
        .error (.missingOrigin 13, runMixedErr.2.1, runMixedErr.2.2))

/-- C10: a task registered under the sentinel's own name coexists with the
sentinel: whenever a by-origin state yields the name idle_worker_task, the
lookup table maps that name to a task distinct from the sentinel whose heap
entry carries that name, while the sentinel itself sits at its own heap
index under the same name. -/
theorem claim_C10 {n : Nts} {main : List Char} {mem m : Mem} {ts : TasksObj}
    (hok : compute_tasks n main mem = .ok (m, ts)) :
    (∀ bn ∈ n.toplevel, bn.name ≠ main → ∀ s ∈ bn.states, ∀ o,
      s.origin = some o → ':' ∈ o →
      o.takeWhile (fun c => c != ':') = sentinelName →
      ∃ tid tk, alookup ts.name_to_task sentinelName = some tid ∧
        tid ≠ ts.idle_worker_task ∧
        nthTask ts.task_heap tid = some tk ∧ tk.name = sentinelName) ∧
      ∃ tk0, nthTask ts.task_heap ts.idle_worker_task = some tk0 ∧
        tk0.name = sentinelName := by
  obtain ⟨m1, hp, htr⟩ := compute_tasks_ok_elim hok
  have hext := (splitAll_ok_facts hp).2.1
  constructor
  · intro bn hbn hname s hs2 o ho hsep hnm
    obtain ⟨tid, tk, hmap, hh, hn, hgt⟩ :=
      splitAll_owner (init_consistent main n.toplevel) hp bn hbn hname
        s hs2 o ho hsep
    rw [hnm] at hmap hn
    refine ⟨tid, tk, hmap, ?_, hh, hn⟩
    rw [hext.2.2.1]
    exact Ne.symm (Nat.ne_of_lt hgt)
  · refine ⟨Task.mk0 sentinelName, ?_, rfl⟩
    rw [hext.2.2.1]
    exact hext.2.2.2.2.1 0 _ rfl

/-- Closed instance of C10's statement on the sentinel-named-origin
program, obtained by applying the theorem. -/
theorem claim_C10_witness :
    (∀ bn ∈ exNtsIdle.toplevel, bn.name ≠ ("main".toList) →
      ∀ s ∈ bn.states, ∀ o, s.origin = some o → ':' ∈ o →
      o.takeWhile (fun c => c != ':') = sentinelName →
      ∃ tid tk,
        alookup runIdlePair.2.name_to_task sentinelName = some tid ∧
        tid ≠ runIdlePair.2.idle_worker_task ∧
        nthTask runIdlePair.2.task_heap tid = some tk ∧
        tk.name = sentinelName) ∧
      ∃ tk0,
        nthTask runIdlePair.2.task_heap runIdlePair.2.idle_worker_task =
          some tk0 ∧ tk0.name = sentinelName :=
  claim_C10
    (by decide :
      compute_tasks exNtsIdle ("main".toList) Mem.empty =
        .ok (runIdlePair.1, runIdlePair.2))

end NtsSeq
